import Mathlib

/-!
# Barnes-Hut N-body simulation (`nbody.c`)

A shallow embedding of the octree builder, the force evaluators and the
velocity-Verlet integrators of `nbody.c`, in exact arithmetic over an
arbitrary linearly ordered field `α` (`double` is read as `α`; over `ℚ`
every definition evaluates), and a second embedding of the octree builder
in which every operation is rounded.

Conventions of the embedding.

* The global `N` is the length of the body list.
* The compile-time constants `G`, `EPS`, `THETA`, `TIME_STEP` and the two
  library calls with an irrational result, `sqrt` and `pow(·, 1.5)`, are
  not defined in `nbody.c`; they are the fields of `Params`.
  `pow(e, 2)` and `pow(e, 3.0)` are `e ^ 2` and `e ^ 3`.
* A `Body **` array together with its length `n_bodies` is a list of
  bodies. A node's list holds the bodies as they were when the node was
  built; the only field the source reads through these pointers after a
  body has moved is `id`, which never changes.
* `children == NULL` is `children = []`. A node pointer is never `NULL` in
  the embedding, so the `tree == NULL` return of `net_force` has no
  counterpart.
* Division is that of the field, with `e / 0 = 0`, where C gives an
  infinity or a NaN. The source divides by a distance, which is `0` only
  when `EPS` is not positive, and by a mass; the evaluations below divide
  by no zero, except where they say so. The one place where the source
  branches on a quotient is the test `side_length / distance < THETA` of
  `net_force`; there the case of a zero distance is made explicit
  (`ratio_below`), with the outcome the comparison has in C.
* `barnes_hut_tree` obtains the root with `malloc` and never assigns its
  `children` field unless the root subdivides; the value that field
  happens to hold is the parameter `junk` of `barnes_hut_tree`: `[]` for
  `NULL`, a non-empty list for any other value, the list being the nodes
  the walk finds behind it.
  A value that is neither `NULL` nor an address is the subject of
  `get_forces_wild` and `barnes_hut_step_wild`, where reading through the
  field is an invalid access, `none`.
* `build_subtree` need not terminate (two bodies at one position); it
  takes the recursion depth it may use as `fuel` and returns `none` when
  that depth does not suffice.
* The definitions with the suffix `_fl` are the octree builder with the
  result of every arithmetic operation rounded by a function `rnd`; with
  `rnd = round64`, the rounding of `double` to the nearest value, ties to
  even, they compute over `ℚ` what the source computes in `double`, as
  long as no value reaches `2 ^ 1024`. With a `rnd` that changes nothing
  they are the definitions without the suffix.
-/

namespace NBody

/-- The `Body` struct. -/
structure Body (α : Type) where
  id : Int
  x : α
  y : α
  z : α
  vx : α
  vy : α
  vz : α
  Fx : α
  Fy : α
  Fz : α
  mass : α
deriving DecidableEq

/-- The `Node` struct; `n_bodies` is the length of `bodies`. -/
inductive Node (α : Type) where
  | mk (children : List (Node α)) (bodies : List (Body α))
      (side_length x y z : α)
      (center_of_mass_x center_of_mass_y center_of_mass_z total_mass : α) : Node α

/-- The constants and library functions `nbody.c` uses without defining. -/
structure Params (α : Type) where
  G : α
  EPS : α
  THETA : α
  TIME_STEP : α
  sqrt : α → α
  pow_1_5 : α → α

namespace Node

variable {α : Type}

def children : Node α → List (Node α)
  | mk c _ _ _ _ _ _ _ _ _ => c

def bodies : Node α → List (Body α)
  | mk _ b _ _ _ _ _ _ _ _ => b

def n_bodies (n : Node α) : Nat := n.bodies.length

def side_length : Node α → α
  | mk _ _ s _ _ _ _ _ _ _ => s

def x : Node α → α
  | mk _ _ _ x _ _ _ _ _ _ => x

def y : Node α → α
  | mk _ _ _ _ y _ _ _ _ _ => y

def z : Node α → α
  | mk _ _ _ _ _ z _ _ _ _ => z

def center_of_mass_x : Node α → α
  | mk _ _ _ _ _ _ cx _ _ _ => cx

def center_of_mass_y : Node α → α
  | mk _ _ _ _ _ _ _ cy _ _ => cy

def center_of_mass_z : Node α → α
  | mk _ _ _ _ _ _ _ _ cz _ => cz

def total_mass : Node α → α
  | mk _ _ _ _ _ _ _ _ _ m => m

end Node

section Builder

variable {α : Type} [LinearOrderedField α]

/-- The loop of `set_mass_info`: the sums `(total_mass, cm_x, cm_y, cm_z)`. -/
def mass_sums (bodies : List (Body α)) : α × α × α × α :=
  bodies.foldl
    (fun acc b =>
      (acc.1 + b.mass, acc.2.1 + b.mass * b.x, acc.2.2.1 + b.mass * b.y,
        acc.2.2.2 + b.mass * b.z))
    (0, 0, 0, 0)

/-- `set_mass_info`. -/
def set_mass_info (n : Node α) : Node α :=
  let s := mass_sums n.bodies
  if s.1 > 0 then
    Node.mk n.children n.bodies n.side_length n.x n.y n.z
      (s.2.1 / s.1) (s.2.2.1 / s.1) (s.2.2.2 / s.1) s.1
  else
    Node.mk n.children n.bodies n.side_length n.x n.y n.z 0 0 0 0

/-- The test of both loops of `bodies_in_node`. -/
def in_region (n : Node α) (b : Body α) : Bool :=
  decide (b.x > n.x - n.side_length / 2 ∧ b.x < n.x + n.side_length / 2
    ∧ b.y > n.y - n.side_length / 2 ∧ b.y < n.y + n.side_length / 2
    ∧ b.z > n.z - n.side_length / 2 ∧ b.z < n.z + n.side_length / 2)

/-- `bodies_in_node`: the node's list becomes the candidates that pass the
test, in order. -/
def bodies_in_node (n : Node α) (bodies : List (Body α)) : Node α :=
  Node.mk n.children (bodies.filter (in_region n)) n.side_length n.x n.y n.z
    n.center_of_mass_x n.center_of_mass_y n.center_of_mass_z n.total_mass

/-- The fresh child `i` of `build_subtree`, before its bodies are set:
`children = NULL`, half the side, the centre of octant `i`. The fields the
source leaves unassigned at this point are given as `0`; `bodies_in_node`
and `set_mass_info` overwrite them. -/
def new_child (n : Node α) (i : Nat) : Node α :=
  let side := n.side_length / 2
  if i = 0 then Node.mk [] [] side (n.x - side / 2) (n.y + side / 2) (n.z + side / 2) 0 0 0 0
  else if i = 1 then Node.mk [] [] side (n.x + side / 2) (n.y + side / 2) (n.z + side / 2) 0 0 0 0
  else if i = 2 then Node.mk [] [] side (n.x - side / 2) (n.y - side / 2) (n.z + side / 2) 0 0 0 0
  else if i = 3 then Node.mk [] [] side (n.x + side / 2) (n.y - side / 2) (n.z + side / 2) 0 0 0 0
  else if i = 4 then Node.mk [] [] side (n.x - side / 2) (n.y + side / 2) (n.z - side / 2) 0 0 0 0
  else if i = 5 then Node.mk [] [] side (n.x + side / 2) (n.y + side / 2) (n.z - side / 2) 0 0 0 0
  else if i = 6 then Node.mk [] [] side (n.x - side / 2) (n.y - side / 2) (n.z - side / 2) 0 0 0 0
  else Node.mk [] [] side (n.x + side / 2) (n.y - side / 2) (n.z - side / 2) 0 0 0 0

/-- Child `i` with its body list and aggregates, before it is subdivided. -/
def init_child (n : Node α) (i : Nat) : Node α :=
  set_mass_info (bodies_in_node (new_child n i) n.bodies)

/-- All results, when every one is present. -/
def all_some {β : Type} : List (Option β) → Option (List β)
  | [] => some []
  | none :: _ => none
  | some a :: rest =>
    match all_some rest with
    | none => none
    | some as => some (a :: as)

/-- The node with its `children` field assigned. -/
def with_children (n : Node α) (cs : List (Node α)) : Node α :=
  Node.mk cs n.bodies n.side_length n.x n.y n.z
    n.center_of_mass_x n.center_of_mass_y n.center_of_mass_z n.total_mass

/-- `build_subtree`, with the recursion depth bounded by `fuel`. -/
def build_subtree : Nat → Node α → Option (Node α)
  | 0, n => if n.n_bodies > 1 then none else some n
  | fuel + 1, n =>
    if n.n_bodies > 1 then
      match all_some ((List.range 8).map fun i => build_subtree fuel (init_child n i)) with
      | none => none
      | some cs => some (with_children n cs)
    else some n

/-- The loop of `max_side_length`. -/
def max_coord (bodies : List (Body α)) : α :=
  bodies.foldl
    (fun max b =>
      let max := if b.x > max then b.x else max
      let max := if b.y > max then b.y else max
      if b.z > max then b.z else max)
    0

/-- `max_side_length`. -/
def max_side_length (bodies : List (Body α)) : α := 2 * max_coord bodies

/-- `barnes_hut_tree`. `junk` is what the `children` field of the freshly
allocated root holds; the source does not assign it before `build_subtree`. -/
def barnes_hut_tree (fuel : Nat) (junk : List (Node α)) (bodies : List (Body α)) :
    Option (Node α) :=
  let n : Node α := Node.mk junk [] (max_side_length bodies) 0 0 0 0 0 0 0
  build_subtree fuel (set_mass_info (bodies_in_node n bodies))

end Builder

section Forces

variable {α : Type} [LinearOrderedField α]

/-- The distance `net_force` computes between the body and the node's
centre of mass. -/
def distance (P : Params α) (body : Body α) (tree : Node α) : α :=
  P.sqrt ((body.x - tree.center_of_mass_x) ^ 2 + (body.y - tree.center_of_mass_y) ^ 2
    + (body.z - tree.center_of_mass_z) ^ 2 + P.EPS)

/-- The guard of `net_force`: the node holds one body and it has the id of
the query body. -/
def is_self (body : Body α) (tree : Node α) : Bool :=
  match tree.bodies with
  | [b0] => decide (body.id = b0.id)
  | _ => false

/-- The comparison `side_length / distance < THETA` of `net_force`. For a
zero distance the quotient is `+∞`, `-∞` or NaN in C, and the comparison
holds only for `-∞`, that is for a negative side. -/
def ratio_below (P : Params α) (body : Body α) (tree : Node α) : Bool :=
  if distance P body tree = 0 then decide (tree.side_length < 0)
  else decide (tree.side_length / distance P body tree < P.THETA)

/-- The test of the base case of `net_force`. -/
def accepts (P : Params α) (body : Body α) (tree : Node α) : Bool :=
  ratio_below P body tree || tree.children.isEmpty

/-- The base case of `net_force`: the node as one point mass. -/
def add_point_mass (P : Params α) (body : Body α) (tree : Node α) (force : α × α × α) :
    α × α × α :=
  let force_mag := P.G * body.mass * tree.total_mass / distance P body tree ^ 3
  (force.1 + force_mag * (tree.center_of_mass_x - body.x),
    force.2.1 + force_mag * (tree.center_of_mass_y - body.y),
    force.2.2 + force_mag * (tree.center_of_mass_z - body.z))

mutual
/-- `net_force`, the accumulator `force` passed and returned. -/
def net_force (P : Params α) (body : Body α) : Node α → α × α × α → α × α × α
  | Node.mk children bodies s x y z cx cy cz m, force =>
    if is_self body (Node.mk children bodies s x y z cx cy cz m) then force
    else if accepts P body (Node.mk children bodies s x y z cx cy cz m) then
      add_point_mass P body (Node.mk children bodies s x y z cx cy cz m) force
    else net_force_children P body children force
/-- The loop over the children in `net_force`. -/
def net_force_children (P : Params α) (body : Body α) :
    List (Node α) → α × α × α → α × α × α
  | [], force => force
  | c :: cs, force => net_force_children P body cs (net_force P body c force)
end

/-- `get_forces`. -/
def get_forces (P : Params α) (bodies : List (Body α)) (tree : Node α) : List (Body α) :=
  bodies.map fun b =>
    let force := net_force P b tree (0, 0, 0)
    { b with Fx := force.1, Fy := force.2.1, Fz := force.2.2 }

/-- The inner loop of `naive_get_forces` for body `i`. -/
def naive_force (P : Params α) (bodies : List (Body α)) (i : Nat) (bi : Body α) : α × α × α :=
  bodies.enum.foldl
    (fun force jb =>
      if i = jb.1 then force
      else
        let r2 := (bi.x - jb.2.x) ^ 2 + (bi.y - jb.2.y) ^ 2 + (bi.z - jb.2.z) ^ 2 + P.EPS
        let r3 := P.pow_1_5 r2
        let f := P.G * bi.mass * jb.2.mass / r3
        (force.1 + f * (jb.2.x - bi.x), force.2.1 + f * (jb.2.y - bi.y),
          force.2.2 + f * (jb.2.z - bi.z)))
    (0, 0, 0)

/-- `naive_get_forces`. -/
def naive_get_forces (P : Params α) (bodies : List (Body α)) : List (Body α) :=
  bodies.enum.map fun ib =>
    let force := naive_force P bodies ib.1 ib.2
    { ib.2 with Fx := force.1, Fy := force.2.1, Fz := force.2.2 }

end Forces

section Integrator

variable {α : Type} [LinearOrderedField α]

/-- The first loop of `barnes_hut_step` for one body: half-kick, then
drift with the new velocity. -/
def kick_drift (P : Params α) (b : Body α) : Body α :=
  let vx := b.vx + (b.Fx / b.mass) * (1 / 2) * P.TIME_STEP
  let vy := b.vy + (b.Fy / b.mass) * (1 / 2) * P.TIME_STEP
  let vz := b.vz + (b.Fz / b.mass) * (1 / 2) * P.TIME_STEP
  { b with vx := vx, vy := vy, vz := vz,
           x := b.x + vx * P.TIME_STEP, y := b.y + vy * P.TIME_STEP,
           z := b.z + vz * P.TIME_STEP }

/-- The last loop of `barnes_hut_step` for one body: half-kick. -/
def kick (P : Params α) (b : Body α) : Body α :=
  { b with vx := b.vx + (b.Fx / b.mass) * (1 / 2) * P.TIME_STEP,
           vy := b.vy + (b.Fy / b.mass) * (1 / 2) * P.TIME_STEP,
           vz := b.vz + (b.Fz / b.mass) * (1 / 2) * P.TIME_STEP }

/-- `barnes_hut_step`. The tree is built once, on entry, and both calls of
`get_forces` walk it. -/
def barnes_hut_step (P : Params α) (fuel : Nat) (junk : List (Node α))
    (bodies : List (Body α)) (first : Bool) : Option (List (Body α)) :=
  match barnes_hut_tree fuel junk bodies with
  | none => none
  | some tree =>
    let bodies := if first then get_forces P bodies tree else bodies
    let bodies := bodies.map (kick_drift P)
    let bodies := get_forces P bodies tree
    some (bodies.map (kick P))

/-- The first loop of `naive_time_step` for one body. -/
def naive_kick_drift (P : Params α) (b : Body α) : Body α :=
  let vx := b.vx + (1 / 2) * (b.Fx / b.mass) * P.TIME_STEP
  let vy := b.vy + (1 / 2) * (b.Fy / b.mass) * P.TIME_STEP
  let vz := b.vz + (1 / 2) * (b.Fz / b.mass) * P.TIME_STEP
  { b with vx := vx, vy := vy, vz := vz,
           x := b.x + vx * P.TIME_STEP, y := b.y + vy * P.TIME_STEP,
           z := b.z + vz * P.TIME_STEP }

/-- The last loop of `naive_time_step` for one body. -/
def naive_kick (P : Params α) (b : Body α) : Body α :=
  { b with vx := b.vx + (1 / 2) * (b.Fx / b.mass) * P.TIME_STEP,
           vy := b.vy + (1 / 2) * (b.Fy / b.mass) * P.TIME_STEP,
           vz := b.vz + (1 / 2) * (b.Fz / b.mass) * P.TIME_STEP }

/-- `naive_time_step`. -/
def naive_time_step (P : Params α) (bodies : List (Body α)) (first : Bool) : List (Body α) :=
  let bodies := if first then naive_get_forces P bodies else bodies
  let bodies := bodies.map (naive_kick_drift P)
  let bodies := naive_get_forces P bodies
  bodies.map (naive_kick P)

end Integrator

section Auxiliary

variable {α : Type} [LinearOrderedField α]

/-- The node `barnes_hut_tree` hands to `build_subtree`: the root with its
centre, side, body list and aggregates set. -/
def root_init (junk : List (Node α)) (bodies : List (Body α)) : Node α :=
  set_mass_info (bodies_in_node (Node.mk junk [] (max_side_length bodies) 0 0 0 0 0 0 0) bodies)

/-- The largest coordinate of one body. -/
def coord_max (b : Body α) : α := max b.x (max b.y b.z)

/-- Two bodies are at different positions. -/
def pos_ne (a b : Body α) : Prop := ¬ (a.x = b.x ∧ a.y = b.y ∧ a.z = b.z)

/-- Any two bodies of the list are at least `δ` apart in some coordinate. -/
def separated (δ : α) (l : List (Body α)) : Prop :=
  l.Pairwise fun a b => δ ≤ |a.x - b.x| ∨ δ ≤ |a.y - b.y| ∨ δ ≤ |a.z - b.z|

/-- The body lies on one of the three planes through the node's centre
along which `build_subtree` splits the node. -/
def on_splitting_plane (n : Node α) (b : Body α) : Prop :=
  b.x = n.x ∨ b.y = n.y ∨ b.z = n.z

mutual
/-- The nodes of the tree below a node, the node included: `build_subtree`
gives children to a node exactly when it holds more than one body, and
these are the nodes it allocates. -/
def tree_nodes : Node α → List (Node α)
  | Node.mk children bodies s x y z cx cy cz m =>
    Node.mk children bodies s x y z cx cy cz m ::
      (if bodies.length > 1 then forest_nodes children else [])
/-- The nodes of the trees below the nodes of a list. -/
def forest_nodes : List (Node α) → List (Node α)
  | [] => []
  | c :: cs => tree_nodes c ++ forest_nodes cs
end

mutual
/-- The leaves below a node: the nodes that hold at most one body, which
`build_subtree` does not subdivide. -/
def tree_leaves : Node α → List (Node α)
  | Node.mk children bodies s x y z cx cy cz m =>
    if bodies.length > 1 then forest_leaves children
    else [Node.mk children bodies s x y z cx cy cz m]
/-- The leaves below the nodes of a list. -/
def forest_leaves : List (Node α) → List (Node α)
  | [] => []
  | c :: cs => tree_leaves c ++ forest_leaves cs
end

/-- The body lists of the leaves below a node, one after the other. -/
def leaf_bodies (n : Node α) : List (Body α) :=
  (tree_leaves n).flatMap Node.bodies

mutual
/-- The nodes on which `net_force` executes its base case, in the order of
the walk: the nodes whose total mass and centre of mass it adds to the
force as one point mass. -/
def accumulated (P : Params α) (body : Body α) : Node α → List (Node α)
  | Node.mk children bodies s x y z cx cy cz m =>
    if is_self body (Node.mk children bodies s x y z cx cy cz m) then []
    else if accepts P body (Node.mk children bodies s x y z cx cy cz m) then
      [Node.mk children bodies s x y z cx cy cz m]
    else accumulated_children P body children
/-- The nodes on which the loop over the children executes the base case. -/
def accumulated_children (P : Params α) (body : Body α) : List (Node α) → List (Node α)
  | [] => []
  | c :: cs => accumulated P body c ++ accumulated_children P body cs
end

/-- The root side the specification describes: twice the largest absolute
value of a coordinate. -/
def spec_root_side (bodies : List (Body α)) : α :=
  2 * (bodies.map fun b => max |b.x| (max |b.y| |b.z|)).foldr max 0

/-- The step the specification describes: half-kick and drift, a tree built
from the drifted bodies, the forces from that tree, the second half-kick
(on the first step the forces of the initial configuration come first). -/
def spec_step (P : Params α) (fuel : Nat) (junk : List (Node α))
    (bodies : List (Body α)) (first : Bool) : Option (List (Body α)) :=
  match (if first then (barnes_hut_tree fuel junk bodies).map (get_forces P bodies)
         else some bodies) with
  | none => none
  | some bodies =>
    let drifted := bodies.map (kick_drift P)
    match barnes_hut_tree fuel junk drifted with
    | none => none
    | some tree => some ((get_forces P drifted tree).map (kick P))

/-- The mass-weighted average of the centres of mass of the children, on
the x axis, each child weighted with its own total mass. -/
def children_com_x (n : Node α) : α :=
  (n.children.map fun c => c.total_mass * c.center_of_mass_x).sum
    / (n.children.map Node.total_mass).sum

/-- The same average on the y axis. -/
def children_com_y (n : Node α) : α :=
  (n.children.map fun c => c.total_mass * c.center_of_mass_y).sum
    / (n.children.map Node.total_mass).sum

/-- The same average on the z axis. -/
def children_com_z (n : Node α) : α :=
  (n.children.map fun c => c.total_mass * c.center_of_mass_z).sum
    / (n.children.map Node.total_mass).sum

/-- The update the specification describes for one body `b` over one
step, `o` being the body after the step: the position advances with the
half-kicked velocity, and the velocity gets two half-kicks, one from the
force stored on entry and one from the force stored on exit. -/
def verlet_update (P : Params α) (b o : Body α) : Prop :=
  o.x = b.x + (b.vx + 1 / 2 * (b.Fx / b.mass) * P.TIME_STEP) * P.TIME_STEP
  ∧ o.y = b.y + (b.vy + 1 / 2 * (b.Fy / b.mass) * P.TIME_STEP) * P.TIME_STEP
  ∧ o.z = b.z + (b.vz + 1 / 2 * (b.Fz / b.mass) * P.TIME_STEP) * P.TIME_STEP
  ∧ o.vx = b.vx + 1 / 2 * (b.Fx / b.mass) * P.TIME_STEP
      + 1 / 2 * (o.Fx / b.mass) * P.TIME_STEP
  ∧ o.vy = b.vy + 1 / 2 * (b.Fy / b.mass) * P.TIME_STEP
      + 1 / 2 * (o.Fy / b.mass) * P.TIME_STEP
  ∧ o.vz = b.vz + 1 / 2 * (b.Fz / b.mass) * P.TIME_STEP
      + 1 / 2 * (o.Fz / b.mass) * P.TIME_STEP

/-- A division that fails on a zero divisor. -/
def checked_div (a b : α) : Option α := if b = 0 then none else some (a / b)

/-- `set_mass_info` with every division checked: `none` when a divisor is
zero. -/
def set_mass_info_checked (n : Node α) : Option (Node α) :=
  let s := mass_sums n.bodies
  if s.1 > 0 then
    match checked_div s.2.1 s.1, checked_div s.2.2.1 s.1, checked_div s.2.2.2 s.1 with
    | some cx, some cy, some cz =>
      some (Node.mk n.children n.bodies n.side_length n.x n.y n.z cx cy cz s.1)
    | _, _, _ => none
  else
    some (Node.mk n.children n.bodies n.side_length n.x n.y n.z 0 0 0 0)

/-- The first loop of `bodies_in_node`: the counter it leaves in
`n_bodies`. -/
def count_in_node (n : Node α) (bodies : List (Body α)) : Nat :=
  bodies.foldl (fun counter b => if in_region n b then counter + 1 else counter) 0

/-- Two bodies that differ at most in the stored force. -/
def same_but_force (a b : Body α) : Prop :=
  a.id = b.id ∧ a.x = b.x ∧ a.y = b.y ∧ a.z = b.z
  ∧ a.vx = b.vx ∧ a.vy = b.vy ∧ a.vz = b.vz ∧ a.mass = b.mass

mutual
/-- The tree with a function applied to every body of every list: what the
tree points to once the bodies have been changed in place. -/
def map_bodies (g : Body α → Body α) : Node α → Node α
  | Node.mk children bodies s x y z cx cy cz m =>
    Node.mk (map_bodies_children g children) (bodies.map g) s x y z cx cy cz m
/-- The same for the nodes of a list. -/
def map_bodies_children (g : Body α → Body α) : List (Node α) → List (Node α)
  | [] => []
  | c :: cs => map_bodies g c :: map_bodies_children g cs
end

/-- The index of the child of a node whose open cube holds a body that is
in the open cube of the node and on none of its splitting planes: odd for
the upper half in `x`, 2 or 3 modulo 4 for the lower half in `y`, 4 or more
for the lower half in `z`, as `build_subtree` numbers the children. -/
def octant_of (n : Node α) (b : Body α) : Nat :=
  (if n.x < b.x then 1 else 0) + (if b.y < n.y then 2 else 0) + (if b.z < n.z then 4 else 0)

/-- The node `k` levels below a node on the way to a body: at each level
the child, as `build_subtree` sets it up, whose octant the body is in. -/
def cube_at (b : Body α) : Nat → Node α → Node α
  | 0, n => n
  | k + 1, n => cube_at b k (init_child n (octant_of n b))

/-- The force fields of a body. -/
def Body.force (b : Body α) : α × α × α := (b.Fx, b.Fy, b.Fz)

/-- Whether `net_force`, called on the node, reads its `children` field:
the node is not the single-body node of the body and the ratio test fails,
so that `tree->children == NULL` is evaluated. -/
def reads_children (P : Params α) (body : Body α) (tree : Node α) : Bool :=
  !is_self body tree && !ratio_below P body tree

/-- `get_forces` on a root whose `children` field, when `build_subtree` has
not assigned it (the root holds at most one body), holds a word that is
neither `NULL` nor the address of an array of nodes: `net_force` takes the
recursive case at the root for a body that makes it read the field, and
`tree->children[i]` is an invalid access, `none` here. Otherwise the field
is assigned or is not read, and the forces are those of `get_forces`. -/
def get_forces_wild (P : Params α) (bodies : List (Body α)) (tree : Node α) :
    Option (List (Body α)) :=
  if tree.n_bodies ≤ 1 ∧ bodies.any (fun b => reads_children P b tree) = true then none
  else some (get_forces P bodies tree)

/-- `barnes_hut_step` when the never-assigned `children` field of a root
that holds at most one body is such a word: the calls of `get_forces` are
those of `get_forces_wild`, and `free_tree`, which tests the field against
`NULL` and then reads `tree->children[i]`, is an invalid access as well. -/
def barnes_hut_step_wild (P : Params α) (fuel : Nat) (bodies : List (Body α))
    (first : Bool) : Option (List (Body α)) :=
  match barnes_hut_tree fuel [] bodies with
  | none => none
  | some tree =>
    match (if first then get_forces_wild P bodies tree else some bodies) with
    | none => none
    | some bodies =>
      match get_forces_wild P (bodies.map (kick_drift P)) tree with
      | none => none
      | some bodies => if tree.n_bodies ≤ 1 then none else some (bodies.map (kick P))

/-- The term body `j` adds to the force on body `i` in the inner loop of
`naive_get_forces`. -/
def pair_force (P : Params α) (bi bj : Body α) : α × α × α :=
  let r2 := (bi.x - bj.x) ^ 2 + (bi.y - bj.y) ^ 2 + (bi.z - bj.z) ^ 2 + P.EPS
  let r3 := P.pow_1_5 r2
  let f := P.G * bi.mass * bj.mass / r3
  (f * (bj.x - bi.x), f * (bj.y - bi.y), f * (bj.z - bi.z))

/-- The sum of the forces stored in the bodies. -/
def total_force (bodies : List (Body α)) : α × α × α :=
  (bodies.map Body.force).sum

/-- The momentum of a body, `mass * velocity`. -/
def Body.momentum (b : Body α) : α × α × α :=
  (b.mass * b.vx, b.mass * b.vy, b.mass * b.vz)

/-- The total momentum of the bodies. -/
def momentum (bodies : List (Body α)) : α × α × α :=
  (bodies.map Body.momentum).sum

/-- The calls of `naive_time_step` in `main`: one with `first = 1`, then
one with `first = 0` for every iteration of the loop. -/
def naive_run (P : Params α) (bodies : List (Body α)) : Nat → List (Body α)
  | 0 => naive_time_step P bodies true
  | steps + 1 => naive_time_step P (naive_run P bodies steps) false

end Auxiliary

section Inputs

/-- A body at rest with no stored force. -/
def body_at (id : Int) (x y z mass : ℚ) : Body ℚ :=
  { id := id, x := x, y := y, z := z, vx := 0, vy := 0, vz := 0,
    Fx := 0, Fy := 0, Fz := 0, mass := mass }

/-- One body of mass 1 at `(1, 0, 0)`. -/
def one_body : List (Body ℚ) := [body_at 0 1 0 0 1]

/-- Three bodies of mass 1 on a line through the origin, at `(1, 2, 2)`,
`(2, 4, 4)` and `(3, 6, 6)`: any two of them are at a rational distance,
3 or 6, and none has a coordinate in common with the centre of a node that
holds it. -/
def bodies_on_line : List (Body ℚ) :=
  [body_at 0 1 2 2 1, body_at 1 2 4 4 1, body_at 2 3 6 6 1]

/-- One body of mass 1 at `(-1, 0, 0)`. -/
def one_body_neg : List (Body ℚ) := [body_at 0 (-1) 0 0 1]

/-- Two bodies of mass 1 at `(1, 2, 2)` and `(2, 4, 4)`, at distance 3. -/
def two_bodies : List (Body ℚ) := [body_at 0 1 2 2 1, body_at 1 2 4 4 1]

/-- Two bodies of mass 1 with no stored force: one at `(1, 2, 2)` moving
with velocity `(1, 2, 2)`, one at rest at `(3, 6, 6)`. -/
def moving_bodies : List (Body ℚ) :=
  [{ id := 0, x := 1, y := 2, z := 2, vx := 1, vy := 2, vz := 2,
     Fx := 0, Fy := 0, Fz := 0, mass := 1 },
   body_at 1 3 6 6 1]

/-- Four bodies of mass 1: the three of `bodies_on_line`, and one at
`(0, 1, 1)`, on the plane `x = 0` through the centre of the root. -/
def bodies_with_plane : List (Body ℚ) :=
  [body_at 0 1 2 2 1, body_at 1 2 4 4 1, body_at 2 0 1 1 1, body_at 3 3 6 6 1]

/-- Two bodies of mass 1 at the same position `(1, 2, 2)`, and a third at
`(3, 6, 6)`. -/
def twin_bodies : List (Body ℚ) :=
  [body_at 0 1 2 2 1, body_at 1 1 2 2 1, body_at 2 3 6 6 1]

/-- One body of mass 1 at the origin. -/
def origin_body : List (Body ℚ) := [body_at 0 0 0 0 1]

/-- A node whose list holds one body of mass `-1`. -/
def negative_mass_node : Node ℚ := Node.mk [] [body_at 0 1 0 0 (-1)] 4 0 0 0 0 0 0 0

/-- A node with no bodies and no children, total mass 1 at the origin:
what a stale pointer may lead to. -/
def stale_node : Node ℚ := Node.mk [] [] 0 0 0 0 0 0 0 1

/-- The root `barnes_hut_tree` returns for `bodies_on_line`. -/
def line_root : Node ℚ := (barnes_hut_tree 2 [] bodies_on_line).getD stale_node

/-- The parameters used for evaluation: `G = 1`, `TIME_STEP = 1`, and for
`sqrt` and `pow(·, 1.5)` the rational square root and its cube, which are
exact on the squares of rationals, the only arguments they get in the
evaluations below. -/
def params_q (eps theta : ℚ) : Params ℚ :=
  { G := 1, EPS := eps, THETA := theta, TIME_STEP := 1,
    sqrt := Rat.sqrt, pow_1_5 := fun q => Rat.sqrt q ^ 3 }

end Inputs

section Rounded

variable {α : Type} [LinearOrderedField α]

/-- The loop of `set_mass_info` with the result of every sum and product
rounded by `rnd`, as an operation on `double` rounds it. -/
def mass_sums_fl (rnd : α → α) (bodies : List (Body α)) : α × α × α × α :=
  bodies.foldl
    (fun acc b =>
      (rnd (acc.1 + b.mass), rnd (acc.2.1 + rnd (b.mass * b.x)),
        rnd (acc.2.2.1 + rnd (b.mass * b.y)), rnd (acc.2.2.2 + rnd (b.mass * b.z))))
    (0, 0, 0, 0)

/-- `set_mass_info` with every operation rounded. -/
def set_mass_info_fl (rnd : α → α) (n : Node α) : Node α :=
  let s := mass_sums_fl rnd n.bodies
  if s.1 > 0 then
    Node.mk n.children n.bodies n.side_length n.x n.y n.z
      (rnd (s.2.1 / s.1)) (rnd (s.2.2.1 / s.1)) (rnd (s.2.2.2 / s.1)) s.1
  else
    Node.mk n.children n.bodies n.side_length n.x n.y n.z 0 0 0 0

/-- The test of both loops of `bodies_in_node`, against the six bounds
`n->x + n->side_length / 2.0`, ... as the source computes them: the
quotient rounded, then the sum or difference rounded. -/
def in_region_fl (rnd : α → α) (n : Node α) (b : Body α) : Bool :=
  decide (b.x > rnd (n.x - rnd (n.side_length / 2)) ∧ b.x < rnd (n.x + rnd (n.side_length / 2))
    ∧ b.y > rnd (n.y - rnd (n.side_length / 2)) ∧ b.y < rnd (n.y + rnd (n.side_length / 2))
    ∧ b.z > rnd (n.z - rnd (n.side_length / 2)) ∧ b.z < rnd (n.z + rnd (n.side_length / 2)))

/-- `bodies_in_node` with every operation rounded. -/
def bodies_in_node_fl (rnd : α → α) (n : Node α) (bodies : List (Body α)) : Node α :=
  Node.mk n.children (bodies.filter (in_region_fl rnd n)) n.side_length n.x n.y n.z
    n.center_of_mass_x n.center_of_mass_y n.center_of_mass_z n.total_mass

/-- The fresh child `i` of `build_subtree` with every operation rounded:
`child->side_length = n->side_length / 2.0`, and each coordinate of the
centre is `n->x` plus or minus `child->side_length / 2.0`. -/
def new_child_fl (rnd : α → α) (n : Node α) (i : Nat) : Node α :=
  let side := rnd (n.side_length / 2)
  let h := rnd (side / 2)
  if i = 0 then Node.mk [] [] side (rnd (n.x - h)) (rnd (n.y + h)) (rnd (n.z + h)) 0 0 0 0
  else if i = 1 then Node.mk [] [] side (rnd (n.x + h)) (rnd (n.y + h)) (rnd (n.z + h)) 0 0 0 0
  else if i = 2 then Node.mk [] [] side (rnd (n.x - h)) (rnd (n.y - h)) (rnd (n.z + h)) 0 0 0 0
  else if i = 3 then Node.mk [] [] side (rnd (n.x + h)) (rnd (n.y - h)) (rnd (n.z + h)) 0 0 0 0
  else if i = 4 then Node.mk [] [] side (rnd (n.x - h)) (rnd (n.y + h)) (rnd (n.z - h)) 0 0 0 0
  else if i = 5 then Node.mk [] [] side (rnd (n.x + h)) (rnd (n.y + h)) (rnd (n.z - h)) 0 0 0 0
  else if i = 6 then Node.mk [] [] side (rnd (n.x - h)) (rnd (n.y - h)) (rnd (n.z - h)) 0 0 0 0
  else Node.mk [] [] side (rnd (n.x + h)) (rnd (n.y - h)) (rnd (n.z - h)) 0 0 0 0

/-- Child `i` with its body list and aggregates, every operation rounded. -/
def init_child_fl (rnd : α → α) (n : Node α) (i : Nat) : Node α :=
  set_mass_info_fl rnd (bodies_in_node_fl rnd (new_child_fl rnd n i) n.bodies)

/-- `build_subtree` with every operation rounded, the recursion depth
bounded by `fuel`. -/
def build_subtree_fl (rnd : α → α) : Nat → Node α → Option (Node α)
  | 0, n => if n.n_bodies > 1 then none else some n
  | fuel + 1, n =>
    if n.n_bodies > 1 then
      match all_some ((List.range 8).map fun i =>
          build_subtree_fl rnd fuel (init_child_fl rnd n i)) with
      | none => none
      | some cs => some (with_children n cs)
    else some n

/-- `max_side_length` with the product `2 * max` rounded. -/
def max_side_length_fl (rnd : α → α) (bodies : List (Body α)) : α :=
  rnd (2 * max_coord bodies)

/-- `barnes_hut_tree` with every operation rounded. -/
def barnes_hut_tree_fl (rnd : α → α) (fuel : Nat) (junk : List (Node α))
    (bodies : List (Body α)) : Option (Node α) :=
  let n : Node α := Node.mk junk [] (max_side_length_fl rnd bodies) 0 0 0 0 0 0 0
  build_subtree_fl rnd fuel (set_mass_info_fl rnd (bodies_in_node_fl rnd n bodies))

instance (n : Node α) (b : Body α) : Decidable (on_splitting_plane n b) :=
  inferInstanceAs (Decidable (b.x = n.x ∨ b.y = n.y ∨ b.z = n.z))

instance (a b : Body α) : Decidable (pos_ne a b) :=
  inferInstanceAs (Decidable (¬ (a.x = b.x ∧ a.y = b.y ∧ a.z = b.z)))

end Rounded

section Doubles

/-- The value `f n`, with `n` evaluated before `f` is applied to it. -/
def force_nat {β : Type} (n : Nat) (f : Nat → β) : β :=
  match n with
  | 0 => f 0
  | k + 1 => f (k + 1)

/-- The value `f i`, with `i` evaluated before `f` is applied to it. -/
def force_int {β : Type} (i : Int) (f : Int → β) : β :=
  match i with
  | Int.ofNat n => force_nat n fun n => f (Int.ofNat n)
  | Int.negSucc n => force_nat n fun n => f (Int.negSucc n)

/-- The value `f q`, with `q` evaluated before `f` is applied to it. -/
def force_rat {β : Type} (q : ℚ) (f : ℚ → β) : β :=
  force_int q.num fun n => force_nat q.den fun d => f (mkRat n d)

/-- The power `2 ^ e` of two, for an integer `e`. -/
def pow2 (e : ℤ) : ℚ :=
  if 0 ≤ e then ((2 ^ e.toNat : ℕ) : ℚ) else mkRat 1 (2 ^ (-e).toNat)

/-- The number of times `n` can be halved before it is below 2, at most
`fuel` times: for `fuel = n` the integer part of the binary logarithm. -/
def nat_log2 : Nat → Nat → Nat
  | 0, _ => 0
  | fuel + 1, n => if n < 2 then 0 else force_nat (n / 2) fun m => nat_log2 fuel m + 1

/-- The exponent `e` with `2 ^ e ≤ |q| < 2 ^ (e + 1)`, for `q ≠ 0`. -/
def floor_log2 (q : ℚ) : ℤ :=
  force_int ((nat_log2 q.num.natAbs q.num.natAbs : ℤ) - (nat_log2 q.den q.den : ℤ)) fun k =>
    if pow2 k ≤ (if q < 0 then -q else q) then k else k - 1

/-- The nearest integer, the even one of the two when they are equally
near. -/
def round_even (q : ℚ) : ℤ :=
  force_int (Rat.floor q) fun f =>
    if q - f < 1 / 2 then f
    else if q - f > 1 / 2 then f + 1
    else if f % 2 = 0 then f else f + 1

/-- The `double` nearest to `q`, the one with the even significand when
two are equally near (the default rounding of IEEE 754 binary64): a
multiple of `2 ^ (e - 52)` for `2 ^ e ≤ |q| < 2 ^ (e + 1)`, and of
`2 ^ (-1074)` below `2 ^ (-1022)`. There is no infinity here: the value is
what the source computes as long as it stays below `2 ^ 1024`. -/
def round64 (q : ℚ) : ℚ :=
  force_rat q fun q =>
    if q = 0 then 0
    else
      force_int (floor_log2 q) fun e =>
        force_rat (pow2 ((if e < -1022 then -1022 else e) - 52)) fun ulp =>
          force_rat (q / ulp) fun m => force_rat ((round_even m : ℚ) * ulp) id

end Doubles

/-! ## Field lemmas -/

section FieldLemmas

variable {α : Type}

@[simp] theorem with_children_bodies (n : Node α) (cs : List (Node α)) :
    (with_children n cs).bodies = n.bodies := rfl
@[simp] theorem with_children_children (n : Node α) (cs : List (Node α)) :
    (with_children n cs).children = cs := rfl
@[simp] theorem with_children_total_mass (n : Node α) (cs : List (Node α)) :
    (with_children n cs).total_mass = n.total_mass := rfl
@[simp] theorem with_children_side_length (n : Node α) (cs : List (Node α)) :
    (with_children n cs).side_length = n.side_length := rfl
@[simp] theorem with_children_x (n : Node α) (cs : List (Node α)) :
    (with_children n cs).x = n.x := rfl
@[simp] theorem with_children_y (n : Node α) (cs : List (Node α)) :
    (with_children n cs).y = n.y := rfl
@[simp] theorem with_children_z (n : Node α) (cs : List (Node α)) :
    (with_children n cs).z = n.z := rfl

end FieldLemmas

section BuilderLemmas

variable {α : Type} [LinearOrderedField α]

/-- What `build_subtree` returns is its argument with, at most, the
`children` field changed. -/
theorem build_subtree_eq (fuel : Nat) (n r : Node α) (h : build_subtree fuel n = some r) :
    r = n ∨ (1 < n.n_bodies ∧ ∃ cs, r = with_children n cs) := by
  cases fuel with
  | zero =>
    simp only [build_subtree] at h
    split at h
    · exact absurd h (by simp)
    · left; exact (Option.some.inj h).symm
  | succ k =>
    simp only [build_subtree] at h
    split at h
    · rename_i hgt
      split at h
      · exact absurd h (by simp)
      · rename_i cs _
        right; exact ⟨hgt, cs, (Option.some.inj h).symm⟩
    · left; exact (Option.some.inj h).symm

theorem build_subtree_bodies (fuel : Nat) (n r : Node α) (h : build_subtree fuel n = some r) :
    r.bodies = n.bodies := by
  rcases build_subtree_eq fuel n r h with rfl | ⟨_, cs, rfl⟩ <;> rfl

theorem build_subtree_total_mass (fuel : Nat) (n r : Node α)
    (h : build_subtree fuel n = some r) : r.total_mass = n.total_mass := by
  rcases build_subtree_eq fuel n r h with rfl | ⟨_, cs, rfl⟩ <;> rfl

theorem build_subtree_side_length (fuel : Nat) (n r : Node α)
    (h : build_subtree fuel n = some r) : r.side_length = n.side_length := by
  rcases build_subtree_eq fuel n r h with rfl | ⟨_, cs, rfl⟩ <;> rfl

theorem build_subtree_center (fuel : Nat) (n r : Node α)
    (h : build_subtree fuel n = some r) : r.x = n.x ∧ r.y = n.y ∧ r.z = n.z := by
  rcases build_subtree_eq fuel n r h with rfl | ⟨_, cs, rfl⟩ <;> exact ⟨rfl, rfl, rfl⟩

theorem barnes_hut_tree_eq (fuel : Nat) (junk : List (Node α)) (bodies : List (Body α)) :
    barnes_hut_tree fuel junk bodies = build_subtree fuel (root_init junk bodies) := rfl

@[simp] theorem set_mass_info_bodies (n : Node α) : (set_mass_info n).bodies = n.bodies := by
  simp only [set_mass_info]; split <;> rfl
@[simp] theorem set_mass_info_children (n : Node α) : (set_mass_info n).children = n.children := by
  simp only [set_mass_info]; split <;> rfl
@[simp] theorem set_mass_info_side_length (n : Node α) :
    (set_mass_info n).side_length = n.side_length := by
  simp only [set_mass_info]; split <;> rfl
@[simp] theorem set_mass_info_x (n : Node α) : (set_mass_info n).x = n.x := by
  simp only [set_mass_info]; split <;> rfl
@[simp] theorem set_mass_info_y (n : Node α) : (set_mass_info n).y = n.y := by
  simp only [set_mass_info]; split <;> rfl
@[simp] theorem set_mass_info_z (n : Node α) : (set_mass_info n).z = n.z := by
  simp only [set_mass_info]; split <;> rfl

theorem in_region_set_mass_info (n : Node α) : in_region (set_mass_info n) = in_region n := by
  funext b; simp [in_region]

theorem in_region_bodies_in_node (n : Node α) (l : List (Body α)) :
    in_region (bodies_in_node n l) = in_region n := rfl

/-- The first component of `mass_sums` is the sum of the masses. -/
theorem mass_sums_fst (l : List (Body α)) : (mass_sums l).1 = (l.map Body.mass).sum := by
  unfold mass_sums
  suffices h : ∀ (acc : α × α × α × α),
      (l.foldl (fun acc b => (acc.1 + b.mass, acc.2.1 + b.mass * b.x,
        acc.2.2.1 + b.mass * b.y, acc.2.2.2 + b.mass * b.z)) acc).1
        = acc.1 + (l.map Body.mass).sum by
    simpa using h (0, 0, 0, 0)
  induction l with
  | nil => intro acc; simp
  | cons b l ih => intro acc; simp [ih, add_assoc]

theorem set_mass_info_total_mass (n : Node α) :
    (set_mass_info n).total_mass
      = if (n.bodies.map Body.mass).sum > 0 then (n.bodies.map Body.mass).sum else 0 := by
  simp only [set_mass_info, mass_sums_fst]
  split <;> rfl


theorem ite_gt_eq_max (a m : α) : (if a > m then a else m) = max m a := by
  split
  · exact (max_eq_right (le_of_lt (by assumption))).symm
  · exact (max_eq_left (le_of_not_gt (by assumption))).symm

theorem foldr_max_nonneg (l : List α) : 0 ≤ l.foldr max 0 := by
  induction l with
  | nil => simp
  | cons b l ih => simp [ih]

/-- The loop of `max_side_length` computes the largest coordinate, or `0`
when no coordinate is positive. -/
theorem max_coord_eq (l : List (Body α)) :
    max_coord l = (l.map coord_max).foldr max 0 := by
  have hf : (fun (max : α) (b : Body α) =>
        let max := if b.x > max then b.x else max
        let max := if b.y > max then b.y else max
        if b.z > max then b.z else max) = fun m b => max (max (max m b.x) b.y) b.z := by
    funext m b
    simp only [ite_gt_eq_max]
  unfold max_coord
  rw [hf]
  suffices h : ∀ m : α, 0 ≤ m →
      l.foldl (fun m b => max (max (max m b.x) b.y) b.z) m
        = max m ((l.map coord_max).foldr max 0) by
    rw [h 0 le_rfl]
    exact max_eq_right (foldr_max_nonneg _)
  induction l with
  | nil =>
    intro m hm
    simp [hm]
  | cons b l ih =>
    intro m hm
    simp only [List.foldl_cons, List.map_cons, List.foldr_cons, coord_max]
    rw [ih _ (le_trans hm (le_trans (le_max_left _ _) (le_trans (le_max_left _ _)
      (le_max_left _ _))))]
    simp only [max_assoc]

theorem max_coord_nonneg (l : List (Body α)) : 0 ≤ max_coord l := by
  rw [max_coord_eq]
  exact foldr_max_nonneg _

theorem le_max_coord (l : List (Body α)) (b : Body α) (hb : b ∈ l) :
    b.x ≤ max_coord l ∧ b.y ≤ max_coord l ∧ b.z ≤ max_coord l := by
  rw [max_coord_eq]
  induction l with
  | nil => simp at hb
  | cons c l ih =>
    simp only [List.map_cons, List.foldr_cons, coord_max]
    rcases List.mem_cons.1 hb with rfl | hb
    · simp
    · obtain ⟨h1, h2, h3⟩ := ih hb
      exact ⟨le_max_of_le_right h1, le_max_of_le_right h2, le_max_of_le_right h3⟩

/-- The value of the loop of `max_side_length` is `0` or a coordinate of
some body. -/
theorem max_coord_attained (l : List (Body α)) :
    max_coord l = 0 ∨ ∃ b ∈ l, b.x = max_coord l ∨ b.y = max_coord l ∨ b.z = max_coord l := by
  rw [max_coord_eq]
  induction l with
  | nil => simp
  | cons c l ih =>
    simp only [List.map_cons, List.foldr_cons, coord_max]
    rcases le_total (max c.x (max c.y c.z)) ((l.map coord_max).foldr max 0) with h | h
    · rw [max_eq_right h]
      rcases ih with h0 | ⟨b, hb, hb2⟩
      · exact Or.inl h0
      · exact Or.inr ⟨b, List.mem_cons_of_mem _ hb, hb2⟩
    · rw [max_eq_left h]
      right
      refine ⟨c, List.mem_cons_self _ _, ?_⟩
      rcases le_total c.x (max c.y c.z) with h1 | h1
      · rw [max_eq_right h1]
        rcases le_total c.y c.z with h2 | h2
        · rw [max_eq_right h2]; simp
        · rw [max_eq_left h2]; simp
      · rw [max_eq_left h1]; simp

@[simp] theorem root_init_bodies (junk : List (Node α)) (bodies : List (Body α)) :
    (root_init junk bodies).bodies
      = bodies.filter (in_region (Node.mk junk [] (max_side_length bodies) 0 0 0 0 0 0 0)) := by
  rw [root_init, set_mass_info_bodies]; rfl

/-- The root cube is open and its half side is the largest coordinate, so
some body of a non-empty set is outside it. -/
theorem exists_not_in_root (junk : List (Node α)) (bodies : List (Body α)) (hN : bodies ≠ []) :
    ∃ b ∈ bodies, in_region (Node.mk junk [] (max_side_length bodies) 0 0 0 0 0 0 0) b = false := by
  rcases max_coord_attained bodies with h0 | ⟨b, hb, hb2⟩
  · obtain ⟨b, hb⟩ := List.exists_mem_of_ne_nil bodies hN
    refine ⟨b, hb, ?_⟩
    simp only [in_region, max_side_length, h0, Node.x, Node.y, Node.z, Node.side_length,
      decide_eq_false_iff_not]
    intro h
    have h1 := h.1
    have h2 := h.2.1
    simp at h1 h2
    exact lt_asymm h1 h2
  · refine ⟨b, hb, ?_⟩
    simp only [in_region, max_side_length, Node.x, Node.y, Node.z, Node.side_length,
      decide_eq_false_iff_not]
    intro h
    have e : (0 : α) + 2 * max_coord bodies / 2 = max_coord bodies := by ring
    rw [e] at h
    rcases hb2 with h1 | h1 | h1
    · exact absurd h.2.1 (by rw [h1]; exact lt_irrefl _)
    · exact absurd h.2.2.2.1 (by rw [h1]; exact lt_irrefl _)
    · exact absurd h.2.2.2.2.2 (by rw [h1]; exact lt_irrefl _)

theorem sum_mass_filter_lt (p : Body α → Bool) (l : List (Body α))
    (hm : ∀ b ∈ l, 0 < b.mass) (hd : ∃ b ∈ l, p b = false) :
    ((l.filter p).map Body.mass).sum < (l.map Body.mass).sum := by
  have hle : ∀ l : List (Body α), (∀ b ∈ l, 0 < b.mass) →
      ((l.filter p).map Body.mass).sum ≤ (l.map Body.mass).sum := by
    intro l
    induction l with
    | nil => intro _; simp
    | cons c l ih =>
      intro hm
      have hc := hm c (List.mem_cons_self _ _)
      have := ih (fun b hb => hm b (List.mem_cons_of_mem _ hb))
      by_cases hp : p c = true
      · simp [List.filter_cons, hp]; exact this
      · simp [List.filter_cons, hp]; linarith
  induction l with
  | nil => obtain ⟨b, hb, _⟩ := hd; simp at hb
  | cons c l ih =>
    have hc := hm c (List.mem_cons_self _ _)
    have hl : ∀ b ∈ l, 0 < b.mass := fun b hb => hm b (List.mem_cons_of_mem _ hb)
    obtain ⟨b, hb, hpb⟩ := hd
    rcases List.mem_cons.1 hb with rfl | hb
    · simp [List.filter_cons, hpb]
      have := hle l hl
      linarith
    · have := ih hl ⟨b, hb, hpb⟩
      by_cases hp : p c = true
      · simp [List.filter_cons, hp]; exact this
      · simp [List.filter_cons, hp]; linarith

end BuilderLemmas

/-! ## Lists of results and tree traversals -/

section AllSome

variable {β γ : Type}

theorem all_some_eq_some_iff (l : List (Option β)) (cs : List β) :
    all_some l = some cs ↔ List.Forall₂ (fun o c => o = some c) l cs := by
  induction l generalizing cs with
  | nil =>
    cases cs <;> simp [all_some]
  | cons o l ih =>
    cases o with
    | none =>
      simp only [all_some]
      constructor
      · intro h; exact absurd h (by simp)
      · intro h
        cases h with
        | cons h _ => exact absurd h (by simp)
    | some a =>
      simp only [all_some]
      cases hrest : all_some l with
      | none =>
        constructor
        · intro h; exact absurd h (by simp)
        · intro h
          cases h with
          | cons _ h2 => exact absurd ((ih _).2 h2) (by simp [hrest])
      | some as =>
        have hF := (ih as).1 hrest
        constructor
        · intro h
          have e : a :: as = cs := Option.some.inj h
          subst e
          exact List.Forall₂.cons rfl hF
        · intro h
          cases h with
          | cons h1 h2 =>
            have e1 := Option.some.inj h1
            have e2 := Option.some.inj (hrest.symm.trans ((ih _).2 h2))
            subst e1; subst e2; rfl

theorem all_some_map_eq_some_iff (f : γ → Option β) (l : List γ) (cs : List β) :
    all_some (l.map f) = some cs ↔ List.Forall₂ (fun i c => f i = some c) l cs := by
  rw [all_some_eq_some_iff, List.forall₂_map_left_iff]

theorem all_some_map_isSome (f : γ → Option β) (l : List γ)
    (h : ∀ i ∈ l, ∃ c, f i = some c) : ∃ cs, all_some (l.map f) = some cs := by
  induction l with
  | nil => exact ⟨[], rfl⟩
  | cons i l ih =>
    obtain ⟨c, hc⟩ := h i (List.mem_cons_self _ _)
    obtain ⟨cs, hcs⟩ := ih (fun j hj => h j (List.mem_cons_of_mem _ hj))
    exact ⟨c :: cs, by simp [all_some, hc, hcs]⟩

theorem forall₂_exists_left {R : γ → β → Prop} {l : List γ} {cs : List β}
    (h : List.Forall₂ R l cs) (c : β) (hc : c ∈ cs) : ∃ i ∈ l, R i c := by
  induction h with
  | nil => simp at hc
  | cons hab _ ih =>
    rcases List.mem_cons.1 hc with rfl | hc
    · exact ⟨_, List.mem_cons_self _ _, hab⟩
    · obtain ⟨i, hi, hR⟩ := ih hc
      exact ⟨i, List.mem_cons_of_mem _ hi, hR⟩

end AllSome

section Traversal

variable {α : Type}

theorem tree_nodes_eq (n : Node α) :
    tree_nodes n = n :: (if n.bodies.length > 1 then forest_nodes n.children else []) := by
  cases n; simp [tree_nodes, Node.bodies, Node.children]

theorem forest_nodes_eq (cs : List (Node α)) : forest_nodes cs = cs.flatMap tree_nodes := by
  induction cs with
  | nil => simp [forest_nodes]
  | cons c cs ih => simp [forest_nodes, ih]

theorem mem_tree_nodes_self (n : Node α) : n ∈ tree_nodes n := by
  rw [tree_nodes_eq]; exact List.mem_cons_self _ _

end Traversal

/-! ## The eight octants -/

section Geometry
variable {α : Type} [LinearOrderedField α]

theorem in_region_iff (n : Node α) (b : Body α) :
    in_region n b = true ↔
      (n.x - n.side_length / 2 < b.x ∧ b.x < n.x + n.side_length / 2)
      ∧ (n.y - n.side_length / 2 < b.y ∧ b.y < n.y + n.side_length / 2)
      ∧ (n.z - n.side_length / 2 < b.z ∧ b.z < n.z + n.side_length / 2) := by
  simp only [in_region, decide_eq_true_eq, gt_iff_lt]
  tauto

theorem in_region_init_child (n : Node α) (i : Nat) :
    in_region (init_child n i) = in_region (new_child n i) := by
  unfold init_child
  rw [in_region_set_mass_info, in_region_bodies_in_node]

@[simp] theorem init_child_bodies (n : Node α) (i : Nat) :
    (init_child n i).bodies = n.bodies.filter (in_region (new_child n i)) := by
  unfold init_child
  rw [set_mass_info_bodies]; rfl

theorem new_child_side_length (n : Node α) (i : Nat) :
    (new_child n i).side_length = n.side_length / 2 := by
  unfold new_child
  simp only []
  split_ifs <;> rfl

theorem init_child_side_length (n : Node α) (i : Nat) :
    (init_child n i).side_length = n.side_length / 2 := by
  unfold init_child
  rw [set_mass_info_side_length]
  exact new_child_side_length n i

theorem new_child_x (n : Node α) (i : Nat) (hi : i < 8) :
    (new_child n i).x = if i % 2 = 0 then n.x - n.side_length / 4 else n.x + n.side_length / 4 := by
  interval_cases i <;> simp [new_child, Node.x] <;> ring

theorem new_child_y (n : Node α) (i : Nat) (hi : i < 8) :
    (new_child n i).y = if i % 4 < 2 then n.y + n.side_length / 4 else n.y - n.side_length / 4 := by
  interval_cases i <;> simp [new_child, Node.y] <;> ring

theorem new_child_z (n : Node α) (i : Nat) (hi : i < 8) :
    (new_child n i).z = if i < 4 then n.z + n.side_length / 4 else n.z - n.side_length / 4 := by
  interval_cases i <;> simp [new_child, Node.z] <;> ring

/-- The open cube of child `i`, relative to the parent: on each axis the
child takes the lower or the upper open half of the parent's interval. -/
theorem new_child_region (n : Node α) (i : Nat) (hi : i < 8) (b : Body α) :
    in_region (new_child n i) b = true ↔
      (if i % 2 = 0 then n.x - n.side_length / 2 < b.x ∧ b.x < n.x
        else n.x < b.x ∧ b.x < n.x + n.side_length / 2)
      ∧ (if i % 4 < 2 then n.y < b.y ∧ b.y < n.y + n.side_length / 2
        else n.y - n.side_length / 2 < b.y ∧ b.y < n.y)
      ∧ (if i < 4 then n.z < b.z ∧ b.z < n.z + n.side_length / 2
        else n.z - n.side_length / 2 < b.z ∧ b.z < n.z) := by
  rw [in_region_iff, new_child_x n i hi, new_child_y n i hi, new_child_z n i hi,
    new_child_side_length]
  refine and_congr ?_ (and_congr ?_ ?_)
  · split <;> constructor <;> rintro ⟨h1, h2⟩ <;> constructor <;> linarith
  · split <;> constructor <;> rintro ⟨h1, h2⟩ <;> constructor <;> linarith
  · split <;> constructor <;> rintro ⟨h1, h2⟩ <;> constructor <;> linarith

/-- The open cubes of two different children have no body in common. -/
theorem new_child_disjoint (n : Node α) (i j : Nat) (hij : i < j) (hj : j < 8) (b : Body α)
    (h1 : in_region (new_child n i) b = true) (h2 : in_region (new_child n j) b = true) :
    False := by
  rw [new_child_region n i (lt_trans hij hj)] at h1
  rw [new_child_region n j hj] at h2
  obtain ⟨hx1, hy1, hz1⟩ := h1
  obtain ⟨hx2, hy2, hz2⟩ := h2
  have ex : (i % 2 = 0 ↔ j % 2 = 0) := by
    by_cases c1 : i % 2 = 0 <;> by_cases c2 : j % 2 = 0 <;>
      simp only [c1, c2, if_true, if_false] at hx1 hx2 <;>
      first | tauto | (exfalso; linarith [hx1.1, hx1.2, hx2.1, hx2.2])
  have ey : (i % 4 < 2 ↔ j % 4 < 2) := by
    by_cases c1 : i % 4 < 2 <;> by_cases c2 : j % 4 < 2 <;>
      simp only [c1, c2, if_true, if_false] at hy1 hy2 <;>
      first | tauto | (exfalso; linarith [hy1.1, hy1.2, hy2.1, hy2.2])
  have ez : (i < 4 ↔ j < 4) := by
    by_cases c1 : i < 4 <;> by_cases c2 : j < 4 <;>
      simp only [c1, c2, if_true, if_false] at hz1 hz2 <;>
      first | tauto | (exfalso; linarith [hz1.1, hz1.2, hz2.1, hz2.2])
  omega

/-- A body in the open cube of a node and on none of its three splitting
planes is in the open cube of one of the eight children. -/
theorem new_child_cover (n : Node α) (b : Body α) (h : in_region n b = true)
    (hp : ¬ on_splitting_plane n b) : ∃ i ∈ List.range 8, in_region (new_child n i) b = true := by
  rw [in_region_iff] at h
  obtain ⟨⟨hx1, hx2⟩, ⟨hy1, hy2⟩, ⟨hz1, hz2⟩⟩ := h
  have hx : b.x ≠ n.x := fun e => hp (Or.inl e)
  have hy : b.y ≠ n.y := fun e => hp (Or.inr (Or.inl e))
  have hz : b.z ≠ n.z := fun e => hp (Or.inr (Or.inr e))
  rcases lt_or_gt_of_ne hx with cx | cx <;> rcases lt_or_gt_of_ne hy with cy | cy <;>
    rcases lt_or_gt_of_ne hz with cz | cz
  · exact ⟨6, by simp, (new_child_region n 6 (by norm_num) b).2 (by norm_num; exact ⟨⟨hx1, cx⟩, ⟨hy1, cy⟩, ⟨hz1, cz⟩⟩)⟩
  · exact ⟨2, by simp, (new_child_region n 2 (by norm_num) b).2 (by norm_num; exact ⟨⟨hx1, cx⟩, ⟨hy1, cy⟩, ⟨cz, hz2⟩⟩)⟩
  · exact ⟨4, by simp, (new_child_region n 4 (by norm_num) b).2 (by norm_num; exact ⟨⟨hx1, cx⟩, ⟨cy, hy2⟩, ⟨hz1, cz⟩⟩)⟩
  · exact ⟨0, by simp, (new_child_region n 0 (by norm_num) b).2 (by norm_num; exact ⟨⟨hx1, cx⟩, ⟨cy, hy2⟩, ⟨cz, hz2⟩⟩)⟩
  · exact ⟨7, by simp, (new_child_region n 7 (by norm_num) b).2 (by norm_num; exact ⟨⟨cx, hx2⟩, ⟨hy1, cy⟩, ⟨hz1, cz⟩⟩)⟩
  · exact ⟨3, by simp, (new_child_region n 3 (by norm_num) b).2 (by norm_num; exact ⟨⟨cx, hx2⟩, ⟨hy1, cy⟩, ⟨cz, hz2⟩⟩)⟩
  · exact ⟨5, by simp, (new_child_region n 5 (by norm_num) b).2 (by norm_num; exact ⟨⟨cx, hx2⟩, ⟨cy, hy2⟩, ⟨hz1, cz⟩⟩)⟩
  · exact ⟨1, by simp, (new_child_region n 1 (by norm_num) b).2 (by norm_num; exact ⟨⟨cx, hx2⟩, ⟨cy, hy2⟩, ⟨cz, hz2⟩⟩)⟩

end Geometry

/-! ## The partition invariant of `build_subtree` -/

section Partition
variable {α : Type} [LinearOrderedField α]

/-- The children `build_subtree` gives a node that holds more than one
body: child `i` is the result of building `init_child n i`. -/
theorem build_subtree_children (fuel : Nat) (n r : Node α)
    (h : build_subtree fuel n = some r) (hgt : n.bodies.length > 1) :
    ∃ k cs, fuel = k + 1 ∧ r = with_children n cs
      ∧ List.Forall₂ (fun i c => build_subtree k (init_child n i) = some c) (List.range 8) cs := by
  cases fuel with
  | zero =>
    simp only [build_subtree, Node.n_bodies, if_pos hgt] at h
    exact absurd h (by simp)
  | succ k =>
    simp only [build_subtree, Node.n_bodies, if_pos hgt] at h
    split at h
    · exact absurd h (by simp)
    · rename_i cs hcs
      exact ⟨k, cs, rfl, (Option.some.inj h).symm, (all_some_map_eq_some_iff _ _ _).1 hcs⟩

theorem build_subtree_of_le (fuel : Nat) (n : Node α) (hle : ¬ n.bodies.length > 1) :
    build_subtree fuel n = some n := by
  cases fuel <;> simp only [build_subtree, Node.n_bodies, if_neg hle]

theorem range8_pairwise : (List.range 8).Pairwise (fun i j => i < j ∧ j < 8) := by
  decide

end Partition

/-! ## Bodies on splitting planes, and the leaves -/

section Partition2
variable {α : Type} [LinearOrderedField α]

end Partition2

section Leaves
variable {α : Type}

mutual
/-- The leaves below a node are the nodes below it that hold at most one
body. -/
theorem tree_leaves_eq_filter : ∀ n : Node α,
    tree_leaves n = (tree_nodes n).filter fun m => decide (m.n_bodies ≤ 1)
  | Node.mk children bodies s x y z cx cy cz m => by
    rw [tree_leaves, tree_nodes]
    by_cases h : bodies.length > 1
    · rw [if_pos h, if_pos h, List.filter_cons_of_neg (by simpa [Node.n_bodies, Node.bodies] using h)]
      exact forest_leaves_eq_filter children
    · rw [if_neg h, if_neg h, List.filter_cons_of_pos (by simpa [Node.n_bodies, Node.bodies] using h)]
      rfl
/-- The same for the nodes of a list. -/
theorem forest_leaves_eq_filter : ∀ cs : List (Node α),
    forest_leaves cs = (forest_nodes cs).filter fun m => decide (m.n_bodies ≤ 1)
  | [] => by rw [forest_leaves, forest_nodes]; rfl
  | c :: cs => by
    rw [forest_leaves, forest_nodes, List.filter_append, tree_leaves_eq_filter c,
      forest_leaves_eq_filter cs]
end

end Leaves

/-! ## Termination of `build_subtree` -/

section Termination
variable {α : Type} [LinearOrderedField α]

/-- A body at a position of its own is some positive distance away, in one
coordinate, from each body of a list. -/
theorem exists_gap (a : Body α) (l : List (Body α)) (h : ∀ b ∈ l, pos_ne a b) :
    ∃ δ : α, 0 < δ ∧ ∀ b ∈ l, δ ≤ |a.x - b.x| ∨ δ ≤ |a.y - b.y| ∨ δ ≤ |a.z - b.z| := by
  induction l with
  | nil => exact ⟨1, one_pos, by simp⟩
  | cons c l ih =>
    obtain ⟨δ, hδ, hl⟩ := ih (fun b hb => h b (List.mem_cons_of_mem _ hb))
    have hc := h c (List.mem_cons_self _ _)
    have hg : ∃ g : α, 0 < g ∧ (g ≤ |a.x - c.x| ∨ g ≤ |a.y - c.y| ∨ g ≤ |a.z - c.z|) := by
      by_cases hx : a.x = c.x
      · by_cases hy : a.y = c.y
        · have hz : a.z ≠ c.z := fun hz => hc ⟨hx, hy, hz⟩
          exact ⟨|a.z - c.z|, abs_pos.2 (sub_ne_zero.2 hz), Or.inr (Or.inr le_rfl)⟩
        · exact ⟨|a.y - c.y|, abs_pos.2 (sub_ne_zero.2 hy), Or.inr (Or.inl le_rfl)⟩
      · exact ⟨|a.x - c.x|, abs_pos.2 (sub_ne_zero.2 hx), Or.inl le_rfl⟩
    obtain ⟨g, hg0, hg1⟩ := hg
    refine ⟨min δ g, lt_min hδ hg0, ?_⟩
    intro b hb
    rcases List.mem_cons.1 hb with rfl | hb
    · rcases hg1 with h1 | h1 | h1
      · exact Or.inl (le_trans (min_le_right _ _) h1)
      · exact Or.inr (Or.inl (le_trans (min_le_right _ _) h1))
      · exact Or.inr (Or.inr (le_trans (min_le_right _ _) h1))
    · rcases hl b hb with h1 | h1 | h1
      · exact Or.inl (le_trans (min_le_left _ _) h1)
      · exact Or.inr (Or.inl (le_trans (min_le_left _ _) h1))
      · exact Or.inr (Or.inr (le_trans (min_le_left _ _) h1))

theorem separated_mono (δ ε : α) (h : ε ≤ δ) (l : List (Body α)) (hl : separated δ l) :
    separated ε l :=
  List.Pairwise.imp (fun {a b} hab => by
    rcases hab with h1 | h1 | h1
    · exact Or.inl (le_trans h h1)
    · exact Or.inr (Or.inl (le_trans h h1))
    · exact Or.inr (Or.inr (le_trans h h1))) hl

/-- Bodies at pairwise different positions are separated by some positive
gap. -/
theorem exists_separated (l : List (Body α)) (h : l.Pairwise pos_ne) :
    ∃ δ : α, 0 < δ ∧ separated δ l := by
  induction l with
  | nil => exact ⟨1, one_pos, List.Pairwise.nil⟩
  | cons a l ih =>
    rw [List.pairwise_cons] at h
    obtain ⟨δ, hδ, hl⟩ := ih h.2
    obtain ⟨g, hg, hgl⟩ := exists_gap a l h.1
    refine ⟨min δ g, lt_min hδ hg, ?_⟩
    unfold separated
    rw [List.pairwise_cons]
    refine ⟨?_, separated_mono δ _ (min_le_left _ _) l hl⟩
    intro b hb
    rcases hgl b hb with h1 | h1 | h1
    · exact Or.inl (le_trans (min_le_right _ _) h1)
    · exact Or.inr (Or.inl (le_trans (min_le_right _ _) h1))
    · exact Or.inr (Or.inr (le_trans (min_le_right _ _) h1))

/-- Two bodies in one open cube differ by less than its side in every
coordinate; if the bodies of the node are `δ`-separated and there are at
least two of them, the side exceeds `δ`. -/
theorem side_gt_of_two (δ : α) (n : Node α) (hsep : separated δ n.bodies)
    (hreg : ∀ b ∈ n.bodies, in_region n b = true) (hgt : n.bodies.length > 1) :
    δ < n.side_length := by
  match hl : n.bodies, hgt with
  | a :: b :: rest, _ =>
    rw [hl] at hsep hreg
    unfold separated at hsep
    rw [List.pairwise_cons] at hsep
    have hab := hsep.1 b (List.mem_cons_self _ _)
    have ha := (in_region_iff n a).1 (hreg a (List.mem_cons_self _ _))
    have hb := (in_region_iff n b).1 (hreg b (List.mem_cons_of_mem _ (List.mem_cons_self _ _)))
    obtain ⟨⟨ax1, ax2⟩, ⟨ay1, ay2⟩, ⟨az1, az2⟩⟩ := ha
    obtain ⟨⟨bx1, bx2⟩, ⟨by1, by2⟩, ⟨bz1, bz2⟩⟩ := hb
    rcases hab with h1 | h1 | h1
    · exact lt_of_le_of_lt h1 (abs_sub_lt_iff.2 ⟨by linarith, by linarith⟩)
    · exact lt_of_le_of_lt h1 (abs_sub_lt_iff.2 ⟨by linarith, by linarith⟩)
    · exact lt_of_le_of_lt h1 (abs_sub_lt_iff.2 ⟨by linarith, by linarith⟩)

/-- `build_subtree` returns within depth `k` once the side is at most
`δ * 2 ^ k`, for bodies that are `δ`-separated. -/
theorem build_subtree_returns (δ : α) (k : Nat) : ∀ n : Node α,
    separated δ n.bodies → (∀ b ∈ n.bodies, in_region n b = true) →
    n.side_length ≤ δ * 2 ^ k → ∃ r, build_subtree k n = some r := by
  induction k with
  | zero =>
    intro n hsep hreg hs
    by_cases hgt : n.bodies.length > 1
    · have := side_gt_of_two δ n hsep hreg hgt
      simp at hs
      exact absurd this (not_lt.2 hs)
    · exact ⟨n, build_subtree_of_le 0 n hgt⟩
  | succ k ih =>
    intro n hsep hreg hs
    by_cases hgt : n.bodies.length > 1
    · have hall : ∀ i ∈ List.range 8, ∃ c, build_subtree k (init_child n i) = some c := by
        intro i _
        refine ih (init_child n i) ?_ ?_ ?_
        · rw [init_child_bodies]
          exact List.Pairwise.sublist (List.filter_sublist _) hsep
        · intro b hb
          rw [init_child_bodies] at hb
          rw [in_region_init_child]
          exact (List.mem_filter.1 hb).2
        · rw [init_child_side_length]
          rw [pow_succ] at hs
          linarith
      obtain ⟨cs, hcs⟩ := all_some_map_isSome _ _ hall
      refine ⟨with_children n cs, ?_⟩
      simp only [build_subtree, Node.n_bodies, if_pos hgt, hcs]
    · exact ⟨n, build_subtree_of_le (k + 1) n hgt⟩

/-- `barnes_hut_tree` returns, given enough depth, for bodies at pairwise
different positions. -/
theorem barnes_hut_tree_returns [Archimedean α] (junk : List (Node α)) (bodies : List (Body α))
    (hd : bodies.Pairwise pos_ne) : ∃ fuel root, barnes_hut_tree fuel junk bodies = some root := by
  obtain ⟨δ, hδ, hsep⟩ := exists_separated bodies hd
  obtain ⟨k, hk⟩ := pow_unbounded_of_one_lt ((root_init junk bodies).side_length / δ)
    (one_lt_two : (1 : α) < 2)
  have hs : (root_init junk bodies).side_length ≤ δ * 2 ^ k := by
    rw [div_lt_iff₀ hδ] at hk
    linarith
  obtain ⟨r, hr⟩ := build_subtree_returns δ k (root_init junk bodies)
    (by rw [root_init_bodies]; exact List.Pairwise.sublist (List.filter_sublist _) hsep)
    (by
      intro b hb
      rw [root_init_bodies] at hb
      rw [root_init, in_region_set_mass_info, in_region_bodies_in_node]
      exact (List.mem_filter.1 hb).2)
    hs
  exact ⟨k, r, hr⟩

end Termination

/-! ## C1: mass of the root -/

section C1

variable {α : Type} [LinearOrderedField α]

/-- C1 (the code departs from the claim): the root built from a non-empty
set of bodies of positive mass has a total mass strictly below the sum of
the masses, whatever the positions: a body on a face of the root cube, or
every body when no coordinate is positive, is left out of the root list. -/
theorem C1_root_mass_below_sum (fuel : Nat) (junk : List (Node α)) (bodies : List (Body α))
    (root : Node α) (hN : bodies ≠ []) (hm : ∀ b ∈ bodies, 0 < b.mass)
    (h : barnes_hut_tree fuel junk bodies = some root) :
    root.total_mass < (bodies.map Body.mass).sum := by
  rw [barnes_hut_tree_eq] at h
  rw [build_subtree_total_mass fuel _ _ h, root_init, set_mass_info_total_mass]
  have hlt := sum_mass_filter_lt
    (in_region (Node.mk junk [] (max_side_length bodies) 0 0 0 0 0 0 0)) bodies hm
    (exists_not_in_root junk bodies hN)
  have hb : (bodies_in_node (Node.mk junk [] (max_side_length bodies) 0 0 0 0 0 0 0) bodies).bodies
      = bodies.filter (in_region (Node.mk junk [] (max_side_length bodies) 0 0 0 0 0 0 0)) := rfl
  rw [hb]
  split
  · exact hlt
  · rename_i hneg
    exact List.sum_pos _ (by simpa using hm) (by simpa using hN)

end C1

/-- C1, at one body of mass 1 at `(1, 0, 0)`: the root is built, its total
mass is 0 and the sum of the masses is 1. -/
theorem C1_root_mass_below_sum_witness :
    ∃ root, barnes_hut_tree 0 [] one_body = some root
      ∧ root.total_mass = 0 ∧ (one_body.map Body.mass).sum = 1
      ∧ root.total_mass < (one_body.map Body.mass).sum := by
  obtain ⟨root, h⟩ := Option.isSome_iff_exists.1
    (show (barnes_hut_tree 0 [] one_body).isSome = true by decide!)
  have h0 : (barnes_hut_tree 0 [] one_body).map Node.total_mass = some 0 := by decide!
  rw [h] at h0
  exact ⟨root, h, Option.some.inj h0, by decide!,
    C1_root_mass_below_sum 0 [] one_body root (by simp [one_body])
      (by simp [one_body, body_at]) h⟩

/-! ## C2: the root cube -/

section C2
variable {α : Type} [LinearOrderedField α]

theorem root_init_side_length (junk : List (Node α)) (bodies : List (Body α)) :
    (root_init junk bodies).side_length = max_side_length bodies := by
  rw [root_init, set_mass_info_side_length]; rfl

theorem root_init_center (junk : List (Node α)) (bodies : List (Body α)) :
    (root_init junk bodies).x = 0 ∧ (root_init junk bodies).y = 0
      ∧ (root_init junk bodies).z = 0 := by
  refine ⟨?_, ?_, ?_⟩
  · rw [root_init, set_mass_info_x]; rfl
  · rw [root_init, set_mass_info_y]; rfl
  · rw [root_init, set_mass_info_z]; rfl

/-- What `barnes_hut_tree` computes for the root cube: the root is centred
at the origin and its side is twice the largest coordinate of a body,
signed, or 0 when no coordinate is positive; that is twice the largest
absolute value when no coordinate is negative. A root is returned, given
enough depth, for bodies at pairwise different positions. -/
theorem root_cube_signed [Archimedean α] (junk : List (Node α)) (bodies : List (Body α)) :
    (bodies.Pairwise pos_ne → ∃ fuel root, barnes_hut_tree fuel junk bodies = some root)
    ∧ ∀ fuel root, barnes_hut_tree fuel junk bodies = some root →
      root.x = 0 ∧ root.y = 0 ∧ root.z = 0
      ∧ root.side_length = 2 * (bodies.map coord_max).foldr max 0
      ∧ ((∀ b ∈ bodies, 0 ≤ b.x ∧ 0 ≤ b.y ∧ 0 ≤ b.z) →
          root.side_length = spec_root_side bodies) := by
  refine ⟨barnes_hut_tree_returns junk bodies, ?_⟩
  intro fuel root h
  rw [barnes_hut_tree_eq] at h
  obtain ⟨hx, hy, hz⟩ := build_subtree_center fuel _ root h
  obtain ⟨cx, cy, cz⟩ := root_init_center junk bodies
  have hs : root.side_length = 2 * (bodies.map coord_max).foldr max 0 := by
    rw [build_subtree_side_length fuel _ root h, root_init_side_length, max_side_length,
      max_coord_eq]
  refine ⟨hx.trans cx, hy.trans cy, hz.trans cz, hs, ?_⟩
  intro hnn
  rw [hs, spec_root_side]
  congr 2
  refine List.map_congr_left ?_
  intro b hb
  obtain ⟨h1, h2, h3⟩ := hnn b hb
  rw [coord_max, abs_of_nonneg h1, abs_of_nonneg h2, abs_of_nonneg h3]

end C2

/-- C2 at one body at `(-1, 0, 0)`: `max_side_length` compares the signed
coordinates with 0, so the root has side 0 and holds no body, where twice
the largest absolute coordinate is 2. -/
theorem C2_negative_coordinates_ignored :
    (barnes_hut_tree 0 [] one_body_neg).map Node.side_length = some 0
    ∧ (barnes_hut_tree 0 [] one_body_neg).map Node.n_bodies = some 0
    ∧ spec_root_side one_body_neg = 2
    ∧ (barnes_hut_tree 0 [] one_body_neg).map Node.side_length
        ≠ some (spec_root_side one_body_neg) := by
  decide!

/-! ## C3, C4, C6, C9: evaluations -/

/-- The square root of the evaluation parameters is exact on squares. -/
theorem params_q_sqrt_sq (eps theta q : ℚ) (hq : 0 ≤ q) :
    (params_q eps theta).sqrt (q * q) = q := by
  show Rat.sqrt (q * q) = q
  rw [Rat.sqrt_eq, abs_of_nonneg hq]

/-- The `pow(·, 1.5)` of the evaluation parameters is exact on squares. -/
theorem params_q_pow_sq (eps theta q : ℚ) (hq : 0 ≤ q) :
    (params_q eps theta).pow_1_5 (q * q) = q ^ 3 := by
  show Rat.sqrt (q * q) ^ 3 = q ^ 3
  rw [Rat.sqrt_eq, abs_of_nonneg hq]

/-- C3 (the code departs from the claim): for two bodies of mass 1 at
`(1, 2, 2)` and `(2, 4, 4)`, with `G = 1`, `EPS = 0`, `THETA = 1/2`, the
tree holds the first body only, `get_forces` stores the force `(0, 0, 0)`
in it, and `naive_get_forces` stores `(1/27, 2/27, 2/27)`. -/
theorem C3_two_bodies_forces_differ :
    (barnes_hut_tree 0 [] two_bodies).map
        (fun tree => (get_forces (params_q 0 (1 / 2)) two_bodies tree).map Body.force)
      = some [(0, 0, 0), (-1 / 27, -2 / 27, -2 / 27)]
    ∧ (naive_get_forces (params_q 0 (1 / 2)) two_bodies).map Body.force
      = [(1 / 27, 2 / 27, 2 / 27), (-1 / 27, -2 / 27, -2 / 27)]
    ∧ (barnes_hut_tree 0 [] two_bodies).map
        (fun tree => (get_forces (params_q 0 (1 / 2)) two_bodies tree).map Body.force)
      ≠ some ((naive_get_forces (params_q 0 (1 / 2)) two_bodies).map Body.force) := by
  decide!

/-- C4 (the code departs from the claim): with `G = 1`, `EPS = 0`,
`TIME_STEP = 1`, one body moving from `(1, 2, 2)` to `(2, 4, 4)` and one at
rest at `(3, 6, 6)`, `barnes_hut_step` leaves the second body with the
force `(-1/108, -2/108, -2/108)`, the pull of the first body from where it
was on entry, and the velocity `vx = -1/216`; the step with a tree built
from the drifted bodies gives `(-1/27, -2/27, -2/27)` and `vx = -1/54`. -/
theorem C4_step_uses_stale_tree :
    (barnes_hut_step (params_q 0 (1 / 2)) 0 [] moving_bodies false).map
        (fun bs => bs.map Body.force)
      = some [(0, 0, 0), (-1 / 108, -1 / 54, -1 / 54)]
    ∧ (barnes_hut_step (params_q 0 (1 / 2)) 0 [] moving_bodies false).map
        (fun bs => bs.map fun b => (b.x, b.vx))
      = some [(2, 1), (3, -1 / 216)]
    ∧ (spec_step (params_q 0 (1 / 2)) 0 [] moving_bodies false).map
        (fun bs => bs.map Body.force)
      = some [(0, 0, 0), (-1 / 27, -2 / 27, -2 / 27)]
    ∧ (spec_step (params_q 0 (1 / 2)) 0 [] moving_bodies false).map
        (fun bs => bs.map fun b => (b.x, b.vx))
      = some [(2, 1), (3, -1 / 54)]
    ∧ (barnes_hut_step (params_q 0 (1 / 2)) 0 [] moving_bodies false).map
        (fun bs => bs.map Body.vx)
      ≠ (spec_step (params_q 0 (1 / 2)) 0 [] moving_bodies false).map
        (fun bs => bs.map Body.vx) := by
  decide!

/-- C6 (the code departs from the claim): of four bodies of mass 1 the root
holds three, one of them at `(0, 1, 1)` on the splitting plane `x = 0`; the
root has 8 children, its centre of mass is `(1, 7/3, 7/3)`, and the
mass-weighted average of the centres of mass of its children is
`(3/2, 3, 3)`. -/
theorem C6_center_of_mass_differs :
    (barnes_hut_tree 2 [] bodies_with_plane).map
        (fun root => (root.children.length, root.bodies.map Body.id))
      = some (8, [0, 1, 2])
    ∧ (barnes_hut_tree 2 [] bodies_with_plane).map
        (fun root => (root.center_of_mass_x, root.center_of_mass_y, root.center_of_mass_z))
      = some (1, 7 / 3, 7 / 3)
    ∧ (barnes_hut_tree 2 [] bodies_with_plane).map
        (fun root => (children_com_x root, children_com_y root, children_com_z root))
      = some (3 / 2, 3, 3)
    ∧ (barnes_hut_tree 2 [] bodies_with_plane).map
        (fun root => decide (root.center_of_mass_x = children_com_x root))
      = some false := by
  decide!

/-- C9 (the code departs from the claim): with `G = 1`, `EPS = 0`, for
three bodies of mass 1 at `(1, 2, 2)`, `(2, 4, 4)` and `(3, 6, 6)`, the
forces from the tree on the first two bodies lack the pull of the third,
which is on a face of the root cube and in no node; this is so for
`THETA = 0` and for `THETA = 1/100` alike. -/
theorem C9_theta_zero_forces_differ :
    (barnes_hut_tree 2 [] bodies_on_line).map
        (fun tree => (get_forces (params_q 0 0) bodies_on_line tree).map Body.force)
      = some [(1 / 27, 2 / 27, 2 / 27), (-1 / 27, -2 / 27, -2 / 27),
          (-5 / 108, -5 / 54, -5 / 54)]
    ∧ (barnes_hut_tree 2 [] bodies_on_line).map
        (fun tree => (get_forces (params_q 0 (1 / 100)) bodies_on_line tree).map Body.force)
      = some [(1 / 27, 2 / 27, 2 / 27), (-1 / 27, -2 / 27, -2 / 27),
          (-5 / 108, -5 / 54, -5 / 54)]
    ∧ (naive_get_forces (params_q 0 0) bodies_on_line).map Body.force
      = [(5 / 108, 5 / 54, 5 / 54), (0, 0, 0), (-5 / 108, -5 / 54, -5 / 54)]
    ∧ (barnes_hut_tree 2 [] bodies_on_line).map
        (fun tree => (get_forces (params_q 0 0) bodies_on_line tree).map Body.force)
      ≠ some ((naive_get_forces (params_q 0 0) bodies_on_line).map Body.force) := by
  decide!

/-! ## C7: the nodes added for a query body -/

section C7
variable {α : Type} [LinearOrderedField α]

mutual
/-- The force `net_force` returns is the accumulator with the point masses
of the nodes of `accumulated` added in order. -/
theorem net_force_eq_foldl (P : Params α) (body : Body α) :
    ∀ (tree : Node α) (force : α × α × α),
      net_force P body tree force
        = (accumulated P body tree).foldl (fun f n => add_point_mass P body n f) force
  | Node.mk children bodies s x y z cx cy cz m, force => by
    rw [net_force, accumulated]
    split
    · rfl
    · split
      · rfl
      · exact net_force_children_eq_foldl P body children force
/-- The same for the loop over the children. -/
theorem net_force_children_eq_foldl (P : Params α) (body : Body α) :
    ∀ (cs : List (Node α)) (force : α × α × α),
      net_force_children P body cs force
        = (accumulated_children P body cs).foldl (fun f n => add_point_mass P body n f) force
  | [], force => by
    rw [net_force_children, accumulated_children]; rfl
  | c :: cs, force => by
    rw [net_force_children, accumulated_children, List.foldl_append,
      ← net_force_eq_foldl P body c force]
    exact net_force_children_eq_foldl P body cs _
end

mutual
/-- A node on which the base case is executed passed the guard and the
test of the base case. -/
theorem accumulated_spec (P : Params α) (body : Body α) :
    ∀ (tree n : Node α), n ∈ accumulated P body tree →
      is_self body n = false ∧ accepts P body n = true
  | Node.mk children bodies s x y z cx cy cz m, n, hn => by
    rw [accumulated] at hn
    split at hn
    · simp at hn
    · split at hn
      · rw [List.mem_singleton] at hn
        subst hn
        rename_i h1 h2
        exact ⟨by simpa using h1, h2⟩
      · exact accumulated_children_spec P body children n hn
/-- The same for the loop over the children. -/
theorem accumulated_children_spec (P : Params α) (body : Body α) :
    ∀ (cs : List (Node α)) (n : Node α), n ∈ accumulated_children P body cs →
      is_self body n = false ∧ accepts P body n = true
  | [], n, hn => by
    rw [accumulated_children] at hn
    simp at hn
  | c :: cs, n, hn => by
    rw [accumulated_children, List.mem_append] at hn
    rcases hn with hn | hn
    · exact accumulated_spec P body c n hn
    · exact accumulated_children_spec P body cs n hn
end

theorem accumulated_of_accepts (P : Params α) (body : Body α) (tree : Node α)
    (h1 : is_self body tree = false) (h2 : accepts P body tree = true) :
    accumulated P body tree = [tree] := by
  cases tree
  rw [accumulated, h1, h2]
  simp

/-- C7, amended: a node on which `net_force` executes its base case for the
query body and whose list holds a body with the id of the query body holds
at least two bodies, and when it has children it passed the test
`side_length / distance < THETA` (`ratio_below`; the quotient itself when
the distance is not 0). So a node that holds the query body alone
is never added; the query body's own mass is added with a node that holds
it together with other bodies and passes the test. -/
theorem C7_accumulated_holding_self (P : Params α) (body : Body α) (tree n : Node α)
    (hn : n ∈ accumulated P body tree) (hb : ∃ c ∈ n.bodies, c.id = body.id) :
    2 ≤ n.n_bodies
    ∧ (n.children ≠ [] →
        ratio_below P body n = true
        ∧ (distance P body n ≠ 0 → n.side_length / distance P body n < P.THETA)) := by
  obtain ⟨hself, hacc⟩ := accumulated_spec P body tree n hn
  refine ⟨?_, ?_⟩
  · obtain ⟨c, hc, hid⟩ := hb
    unfold Node.n_bodies
    match hl : n.bodies with
    | [] => rw [hl] at hc; simp at hc
    | [c0] =>
      rw [hl, List.mem_singleton] at hc
      subst hc
      simp [is_self, hl, hid] at hself
    | _ :: _ :: _ => simp
  · intro hne
    simp only [accepts, Bool.or_eq_true, List.isEmpty_iff] at hacc
    rcases hacc with h | h
    · refine ⟨h, fun hd => ?_⟩
      simpa [ratio_below, hd] using h
    · exact absurd h hne

end C7

/-- C7 fails as stated: with `THETA = 10` and `EPS = 0`, for the body with
id 0 of three bodies on a line, `net_force` executes its base case on one
node, the root, whose list holds the bodies with ids 0 and 1. -/
theorem C7_counterexample :
    (barnes_hut_tree 2 [] bodies_on_line).map
        (fun root => (accumulated (params_q 0 10) (body_at 0 1 2 2 1) root).map
          fun n => n.bodies.map Body.id)
      = some [[0, 1]]
    ∧ (barnes_hut_tree 2 [] bodies_on_line).map
        (fun root => (accumulated (params_q 0 10) (body_at 0 1 2 2 1) root).any
          fun n => n.bodies.any fun c => decide (c.id = (body_at 0 1 2 2 1).id))
      = some true := by
  decide!

/-- C7, amended, at the root built for three bodies on a line, with
`THETA = 10`: the root is added for the body with id 0, its list holds a
body with id 0, and it holds two bodies. -/
theorem C7_accumulated_holding_self_witness :
    line_root ∈ accumulated (params_q 0 10) (body_at 0 1 2 2 1) line_root
    ∧ (∃ c ∈ line_root.bodies, c.id = (body_at 0 1 2 2 1).id)
    ∧ 2 ≤ line_root.n_bodies
    ∧ (line_root.children ≠ [] →
        ratio_below (params_q 0 10) (body_at 0 1 2 2 1) line_root = true
        ∧ (distance (params_q 0 10) (body_at 0 1 2 2 1) line_root ≠ 0 →
          line_root.side_length / distance (params_q 0 10) (body_at 0 1 2 2 1) line_root
            < (params_q 0 10).THETA)) := by
  have hn : line_root ∈ accumulated (params_q 0 10) (body_at 0 1 2 2 1) line_root := by
    rw [accumulated_of_accepts _ _ _ (by decide!) (by decide!)]
    exact List.mem_singleton_self _
  have hb : ∃ c ∈ line_root.bodies, c.id = (body_at 0 1 2 2 1).id := by
    have h : line_root.bodies.any (fun c => decide (c.id = (body_at 0 1 2 2 1).id)) = true := by
      decide!
    obtain ⟨c, hc, hid⟩ := List.any_eq_true.1 h
    exact ⟨c, hc, of_decide_eq_true hid⟩
  exact ⟨hn, hb, C7_accumulated_holding_self _ _ line_root line_root hn hb⟩

/-! ## C10: the subdivision rule -/

section C10
variable {α : Type} [LinearOrderedField α]

theorem new_child_children (n : Node α) (i : Nat) : (new_child n i).children = [] := by
  unfold new_child
  simp only []
  split_ifs <;> rfl

theorem init_child_children (n : Node α) (i : Nat) : (init_child n i).children = [] := by
  unfold init_child
  rw [set_mass_info_children]
  exact new_child_children n i

/-- The subdivision rule at the nodes `build_subtree` allocates: a node
handed to `build_subtree` with `children = NULL`, or holding more than one
body, comes back as a tree in which every node has no children or 8, and
has 8 exactly when it holds more than one body. -/
theorem build_subtree_rule (fuel : Nat) : ∀ (n r : Node α),
    build_subtree fuel n = some r → (n.children = [] ∨ 1 < n.n_bodies) →
    ∀ m ∈ tree_nodes r,
      (m.children = [] ∨ m.children.length = 8) ∧ (m.children.length = 8 ↔ 1 < m.n_bodies) := by
  induction fuel with
  | zero =>
    intro n r h hn m hm
    by_cases hgt : n.bodies.length > 1
    · obtain ⟨k, _, hk, _⟩ := build_subtree_children 0 n r h hgt
      omega
    · rw [build_subtree_of_le 0 n hgt] at h
      have e := Option.some.inj h
      subst e
      rw [tree_nodes_eq, if_neg hgt, List.mem_singleton] at hm
      subst hm
      have hc : m.children = [] := hn.resolve_right hgt
      exact ⟨Or.inl hc, by simp [hc, Node.n_bodies]; omega⟩
  | succ k ih =>
    intro n r h hn m hm
    by_cases hgt : n.bodies.length > 1
    · obtain ⟨k', cs, hk, hr, hF⟩ := build_subtree_children (k + 1) n r h hgt
      have hkk : k' = k := by omega
      subst hkk
      subst hr
      have hlen : cs.length = 8 := by
        have := hF.length_eq
        simpa using this.symm
      have hgt' : (with_children n cs).bodies.length > 1 := hgt
      rw [tree_nodes_eq, if_pos hgt', List.mem_cons] at hm
      rcases hm with rfl | hm
      · rw [with_children_children]
        exact ⟨Or.inr hlen, by simp [hlen, Node.n_bodies]; exact hgt⟩
      · rw [with_children_children, forest_nodes_eq] at hm
        obtain ⟨c, hc, hmc⟩ := List.mem_flatMap.1 hm
        obtain ⟨i, _, hi⟩ := forall₂_exists_left hF c hc
        exact ih (init_child n i) c hi (Or.inl (init_child_children n i)) m hmc
    · rw [build_subtree_of_le (k + 1) n hgt] at h
      have e := Option.some.inj h
      subst e
      rw [tree_nodes_eq, if_neg hgt, List.mem_singleton] at hm
      subst hm
      have hc : m.children = [] := hn.resolve_right hgt
      exact ⟨Or.inl hc, by simp [hc, Node.n_bodies]; omega⟩

theorem root_init_children (junk : List (Node α)) (bodies : List (Body α)) :
    (root_init junk bodies).children = junk := by
  rw [root_init, set_mass_info_children]; rfl

/-- The subdivision rule holds at every node of the tree when the
`children` field of the fresh root holds `NULL`. -/
theorem subdivision_rule_of_null (fuel : Nat) (bodies : List (Body α)) (root : Node α)
    (h : barnes_hut_tree fuel [] bodies = some root) :
    ∀ m ∈ tree_nodes root,
      (m.children = [] ∨ m.children.length = 8) ∧ (m.children.length = 8 ↔ 1 < m.n_bodies) :=
  build_subtree_rule fuel _ root h (Or.inl (root_init_children [] bodies))

/-- A root that holds at most one body keeps the `children` field the fresh
root had. -/
theorem root_children_of_le (fuel : Nat) (junk : List (Node α)) (bodies : List (Body α))
    (root : Node α) (h : barnes_hut_tree fuel junk bodies = some root)
    (hle : root.n_bodies ≤ 1) : root.children = junk := by
  rw [barnes_hut_tree_eq] at h
  have hb := build_subtree_bodies fuel _ root h
  have hle' : ¬ (root_init junk bodies).bodies.length > 1 := by
    rw [← hb]; exact not_lt.2 hle
  rw [build_subtree_of_le fuel _ hle'] at h
  rw [← Option.some.inj h, root_init_children]

end C10

/-- C10 (the code departs from the claim): for one body at `(1, 0, 0)` the
root holds no body and `build_subtree` leaves its `children` field as
`barnes_hut_tree` found it; when that is a pointer to one node, the root
has 1 child. -/
theorem C10_root_children_unassigned :
    (barnes_hut_tree 0 [stale_node] one_body).map
        (fun root => (root.n_bodies, root.children.length))
      = some (0, 1) := by
  decide!


/-! ## C8: the force on a single body -/

section C8
variable {α : Type} [LinearOrderedField α]

/-- The root built for one body holds no body. -/
theorem root_init_single (junk : List (Node α)) (b : Body α) :
    (root_init junk [b]).bodies = [] := by
  rw [root_init_bodies]
  obtain ⟨c, hc, hout⟩ := exists_not_in_root junk [b] (by simp)
  rw [List.mem_singleton] at hc
  subst hc
  simp [List.filter_cons, hout]

theorem root_init_total_mass_single (junk : List (Node α)) (b : Body α) :
    (root_init junk [b]).total_mass = 0 := by
  have h := root_init_single junk b
  rw [root_init] at h ⊢
  rw [set_mass_info_bodies] at h
  rw [set_mass_info_total_mass, h]
  simp

/-- When the `children` field of the fresh root holds `NULL`, the force
stored for a single body is `(0, 0, 0)`. -/
theorem get_forces_single_of_null (P : Params α) (fuel : Nat) (b : Body α) (root : Node α)
    (h : barnes_hut_tree fuel [] [b] = some root) :
    (get_forces P [b] root).map Body.force = [(0, 0, 0)] := by
  rw [barnes_hut_tree_eq] at h
  have hb : (root_init ([] : List (Node α)) [b]).bodies = [] := root_init_single [] b
  have hle : ¬ (root_init ([] : List (Node α)) [b]).bodies.length > 1 := by simp [hb]
  rw [build_subtree_of_le fuel _ hle] at h
  have e := Option.some.inj h
  subst e
  have hm := root_init_total_mass_single ([] : List (Node α)) b
  have hc := root_init_children ([] : List (Node α)) [b]
  have hacc : accumulated P b (root_init [] [b]) = [root_init [] [b]] := by
    refine accumulated_of_accepts P b _ ?_ ?_
    · simp [is_self, hb]
    · simp [accepts, hc]
  simp [get_forces, Body.force, net_force_eq_foldl, hacc, add_point_mass, hm]

end C8

/-- C8 (the code departs from the claim): one body at `(1, 0, 0)`, with
`EPS = 3` and `THETA = 1/2`. The root has side 2 and no body, the distance
is 2, so the ratio test fails and `net_force` reads the `children` field of
the root, which `barnes_hut_tree` never assigned. When the field holds a
pointer that leads to a node of mass 1 the force stored is
`(-1/8, 0, 0)`; when it holds `NULL` the force stored is `(0, 0, 0)`. -/
theorem C8_single_body_force_depends_on_junk :
    (barnes_hut_tree 0 [stale_node] one_body).map
        (fun tree => (get_forces (params_q 3 (1 / 2)) one_body tree).map Body.force)
      = some [(-1 / 8, 0, 0)]
    ∧ (barnes_hut_tree 0 [] one_body).map
        (fun tree => (get_forces (params_q 3 (1 / 2)) one_body tree).map Body.force)
      = some [(0, 0, 0)] := by
  decide!


/-! ## C6: the centre of mass of a node and of its children -/

section C6
variable {α : Type} [LinearOrderedField α]

/-- The four sums of the loop of `set_mass_info`. -/
theorem mass_sums_eq (l : List (Body α)) :
    mass_sums l = ((l.map Body.mass).sum, (l.map fun b => b.mass * b.x).sum,
      (l.map fun b => b.mass * b.y).sum, (l.map fun b => b.mass * b.z).sum) := by
  unfold mass_sums
  suffices h : ∀ (acc : α × α × α × α),
      l.foldl (fun acc b => (acc.1 + b.mass, acc.2.1 + b.mass * b.x,
        acc.2.2.1 + b.mass * b.y, acc.2.2.2 + b.mass * b.z)) acc
        = (acc.1 + (l.map Body.mass).sum, acc.2.1 + (l.map fun b => b.mass * b.x).sum,
          acc.2.2.1 + (l.map fun b => b.mass * b.y).sum,
          acc.2.2.2 + (l.map fun b => b.mass * b.z).sum) by
    simpa using h (0, 0, 0, 0)
  induction l with
  | nil => intro acc; simp
  | cons b l ih => intro acc; simp [ih, add_assoc]

/-- The aggregates `set_mass_info` stores for bodies of positive mass: the
total mass is the sum of the masses, and the total mass times the centre of
mass is the sum of the masses times the positions. -/
theorem set_mass_info_aggregates (n : Node α) (hm : ∀ b ∈ n.bodies, 0 < b.mass) :
    (set_mass_info n).total_mass = (n.bodies.map Body.mass).sum
    ∧ (set_mass_info n).total_mass * (set_mass_info n).center_of_mass_x
        = (n.bodies.map fun b => b.mass * b.x).sum
    ∧ (set_mass_info n).total_mass * (set_mass_info n).center_of_mass_y
        = (n.bodies.map fun b => b.mass * b.y).sum
    ∧ (set_mass_info n).total_mass * (set_mass_info n).center_of_mass_z
        = (n.bodies.map fun b => b.mass * b.z).sum := by
  simp only [set_mass_info, mass_sums_eq]
  split
  · rename_i hpos
    have hne : (n.bodies.map Body.mass).sum ≠ 0 := ne_of_gt hpos
    refine ⟨rfl, ?_, ?_, ?_⟩ <;>
      simp only [Node.total_mass, Node.center_of_mass_x, Node.center_of_mass_y,
        Node.center_of_mass_z] <;>
      field_simp
  · rename_i hneg
    have hnil : n.bodies = [] := by
      by_contra hne
      exact hneg (List.sum_pos _ (by simpa using hm) (by simpa using hne))
    simp [hnil, Node.total_mass, Node.center_of_mass_x, Node.center_of_mass_y,
      Node.center_of_mass_z]

theorem sum_ite_unique {ι : Type} (is : List ι) (p : ι → Prop) [DecidablePred p] (a : α)
    (hd : is.Pairwise fun i j => ¬ (p i ∧ p j)) (he : ∃ i ∈ is, p i) :
    (is.map fun i => if p i then a else 0).sum = a := by
  induction is with
  | nil => obtain ⟨i, hi, _⟩ := he; simp at hi
  | cons i is ih =>
    rw [List.pairwise_cons] at hd
    by_cases hp : p i
    · have hz : (is.map fun j => if p j then a else 0).sum = 0 := by
        apply List.sum_eq_zero
        intro x hx
        obtain ⟨j, hj, rfl⟩ := List.mem_map.1 hx
        have : ¬ p j := fun hpj => hd.1 j hj ⟨hp, hpj⟩
        simp [this]
      simp [hp, hz]
    · obtain ⟨j, hj, hpj⟩ := he
      rcases List.mem_cons.1 hj with rfl | hj
      · exact absurd hpj hp
      · simp [hp, ih hd.2 ⟨j, hj, hpj⟩]

/-- Summing over the parts of a list, when each element is in exactly one
part, is summing over the list. -/
theorem sum_filter_parts {ι : Type} (is : List ι) (p : ι → Body α → Bool) (f : Body α → α)
    (l : List (Body α))
    (hd : ∀ b ∈ l, is.Pairwise fun i j => ¬ (p i b = true ∧ p j b = true))
    (he : ∀ b ∈ l, ∃ i ∈ is, p i b = true) :
    (is.map fun i => ((l.filter (p i)).map f).sum).sum = (l.map f).sum := by
  induction l with
  | nil => simp
  | cons b l ih =>
    have ihl := ih (fun c hc => hd c (List.mem_cons_of_mem _ hc))
      (fun c hc => he c (List.mem_cons_of_mem _ hc))
    have hsplit : (fun i => (((b :: l).filter (p i)).map f).sum)
        = fun i => (if p i b = true then f b else 0) + ((l.filter (p i)).map f).sum := by
      funext i
      by_cases hp : p i b = true
      · simp [List.filter_cons, hp]
      · simp [List.filter_cons, hp]
    rw [hsplit, List.sum_map_add, ihl,
      sum_ite_unique is (fun i => p i b = true) (f b) (hd b (List.mem_cons_self _ _))
        (he b (List.mem_cons_self _ _))]
    simp

theorem build_subtree_aggregates (fuel : Nat) (n r : Node α)
    (h : build_subtree fuel n = some r) :
    r.total_mass = n.total_mass ∧ r.center_of_mass_x = n.center_of_mass_x
    ∧ r.center_of_mass_y = n.center_of_mass_y ∧ r.center_of_mass_z = n.center_of_mass_z := by
  rcases build_subtree_eq fuel n r h with rfl | ⟨_, cs, rfl⟩ <;> exact ⟨rfl, rfl, rfl, rfl⟩

theorem forall₂_map_eq {ι β γ : Type} {R : ι → β → Prop} {is : List ι} {cs : List β}
    (h : List.Forall₂ R is cs) (g : β → γ) (g' : ι → γ) (hg : ∀ i c, R i c → g c = g' i) :
    cs.map g = is.map g' := by
  induction h with
  | nil => rfl
  | cons hab _ ih => simp [hg _ _ hab, ih]

/-- The children of a subdivided node carry, between them, the mass and
the mass-weighted positions of the bodies of the node, when these have
positive mass and none is on a splitting plane of the node. -/
theorem children_sums (fuel : Nat) (n' r : Node α)
    (h : build_subtree fuel (set_mass_info n') = some r)
    (hgt : 1 < n'.bodies.length)
    (hm : ∀ b ∈ n'.bodies, 0 < b.mass)
    (hreg : ∀ b ∈ n'.bodies, in_region n' b = true)
    (hp : ∀ b ∈ n'.bodies, ¬ on_splitting_plane n' b) :
    r.children.length = 8
    ∧ (r.children.map Node.total_mass).sum = r.total_mass
    ∧ (r.children.map fun c => c.total_mass * c.center_of_mass_x).sum
        = r.total_mass * r.center_of_mass_x
    ∧ (r.children.map fun c => c.total_mass * c.center_of_mass_y).sum
        = r.total_mass * r.center_of_mass_y
    ∧ (r.children.map fun c => c.total_mass * c.center_of_mass_z).sum
        = r.total_mass * r.center_of_mass_z := by
  have hb : (set_mass_info n').bodies = n'.bodies := set_mass_info_bodies n'
  have hgt' : (set_mass_info n').bodies.length > 1 := by rw [hb]; exact hgt
  obtain ⟨k, cs, _, hr, hF⟩ := build_subtree_children fuel _ r h hgt'
  subst hr
  simp only [with_children_children, with_children_total_mass]
  have hcx : (with_children (set_mass_info n') cs).center_of_mass_x
      = (set_mass_info n').center_of_mass_x := rfl
  have hcy : (with_children (set_mass_info n') cs).center_of_mass_y
      = (set_mass_info n').center_of_mass_y := rfl
  have hcz : (with_children (set_mass_info n') cs).center_of_mass_z
      = (set_mass_info n').center_of_mass_z := rfl
  rw [hcx, hcy, hcz]
  obtain ⟨a0, a1, a2, a3⟩ := set_mass_info_aggregates n' hm
  -- the aggregates of child `i`
  have hci : ∀ i c, build_subtree k (init_child (set_mass_info n') i) = some c →
      c.total_mass = ((n'.bodies.filter (in_region (new_child n' i))).map Body.mass).sum
      ∧ c.total_mass * c.center_of_mass_x
          = ((n'.bodies.filter (in_region (new_child n' i))).map fun b => b.mass * b.x).sum
      ∧ c.total_mass * c.center_of_mass_y
          = ((n'.bodies.filter (in_region (new_child n' i))).map fun b => b.mass * b.y).sum
      ∧ c.total_mass * c.center_of_mass_z
          = ((n'.bodies.filter (in_region (new_child n' i))).map fun b => b.mass * b.z).sum := by
    intro i c hc
    obtain ⟨e0, e1, e2, e3⟩ := build_subtree_aggregates k _ c hc
    rw [e0, e1, e2, e3]
    have hreg_eq : in_region (new_child (set_mass_info n') i) = in_region (new_child n' i) := by
      funext b
      simp [in_region, new_child]
    have hl : (bodies_in_node (new_child (set_mass_info n') i) (set_mass_info n').bodies).bodies
        = n'.bodies.filter (in_region (new_child n' i)) := by
      rw [hb, ← hreg_eq]; rfl
    have := set_mass_info_aggregates
      (bodies_in_node (new_child (set_mass_info n') i) (set_mass_info n').bodies)
      (by
        intro b hbm
        rw [hl] at hbm
        exact hm b (List.mem_filter.1 hbm).1)
    rw [hl] at this
    exact this
  have hd : ∀ b ∈ n'.bodies, (List.range 8).Pairwise fun i j =>
      ¬ (in_region (new_child n' i) b = true ∧ in_region (new_child n' j) b = true) := by
    intro b _
    refine range8_pairwise.imp ?_
    intro i j hij hboth
    exact new_child_disjoint n' i j hij.1 hij.2 b hboth.1 hboth.2
  have he : ∀ b ∈ n'.bodies, ∃ i ∈ List.range 8, in_region (new_child n' i) b = true :=
    fun b hbm => new_child_cover n' b (hreg b hbm) (hp b hbm)
  refine ⟨?_, ?_, ?_, ?_, ?_⟩
  · simpa using hF.length_eq.symm
  · rw [forall₂_map_eq hF Node.total_mass _ (fun i c hc => (hci i c hc).1),
      sum_filter_parts (List.range 8) (fun i => in_region (new_child n' i)) Body.mass
        n'.bodies hd he, a0]
  · rw [forall₂_map_eq hF (fun c => c.total_mass * c.center_of_mass_x) _
        (fun i c hc => (hci i c hc).2.1),
      sum_filter_parts (List.range 8) (fun i => in_region (new_child n' i))
        (fun b => b.mass * b.x) n'.bodies hd he, a1]
  · rw [forall₂_map_eq hF (fun c => c.total_mass * c.center_of_mass_y) _
        (fun i c hc => (hci i c hc).2.2.1),
      sum_filter_parts (List.range 8) (fun i => in_region (new_child n' i))
        (fun b => b.mass * b.y) n'.bodies hd he, a2]
  · rw [forall₂_map_eq hF (fun c => c.total_mass * c.center_of_mass_z) _
        (fun i c hc => (hci i c hc).2.2.2),
      sum_filter_parts (List.range 8) (fun i => in_region (new_child n' i))
        (fun b => b.mass * b.z) n'.bodies hd he, a3]

/-- Every node of a built tree is itself what `build_subtree` returns for a
node whose aggregates `set_mass_info` has just set and whose bodies are in
its open cube. -/
theorem tree_nodes_built (fuel : Nat) : ∀ (n' r : Node α),
    build_subtree fuel (set_mass_info n') = some r →
    (∀ b ∈ n'.bodies, in_region n' b = true) →
    ∀ m ∈ tree_nodes r, ∃ k m', build_subtree k (set_mass_info m') = some m
      ∧ m'.bodies = m.bodies ∧ m'.x = m.x ∧ m'.y = m.y ∧ m'.z = m.z
      ∧ (∀ b ∈ m'.bodies, in_region m' b = true)
      ∧ (∀ b ∈ m.bodies, b ∈ n'.bodies) := by
  induction fuel with
  | zero =>
    intro n' r h hreg m hm
    have hb := build_subtree_bodies 0 _ r h
    obtain ⟨hx, hy, hz⟩ := build_subtree_center 0 _ r h
    by_cases hgt : (set_mass_info n').bodies.length > 1
    · obtain ⟨k, _, hk, _⟩ := build_subtree_children 0 _ r h hgt
      omega
    · have hgt' : ¬ r.bodies.length > 1 := by rw [hb]; exact hgt
      rw [tree_nodes_eq, if_neg hgt', List.mem_singleton] at hm
      subst hm
      refine ⟨0, n', h, ?_, ?_, ?_, ?_, hreg, ?_⟩
      · rw [hb, set_mass_info_bodies]
      · rw [hx, set_mass_info_x]
      · rw [hy, set_mass_info_y]
      · rw [hz, set_mass_info_z]
      · intro b hbm; rw [hb, set_mass_info_bodies] at hbm; exact hbm
  | succ k ih =>
    intro n' r h hreg m hm
    have hb := build_subtree_bodies (k + 1) _ r h
    obtain ⟨hx, hy, hz⟩ := build_subtree_center (k + 1) _ r h
    have hroot : ∃ k m', build_subtree k (set_mass_info m') = some r
        ∧ m'.bodies = r.bodies ∧ m'.x = r.x ∧ m'.y = r.y ∧ m'.z = r.z
        ∧ (∀ b ∈ m'.bodies, in_region m' b = true)
        ∧ (∀ b ∈ r.bodies, b ∈ n'.bodies) := by
      refine ⟨k + 1, n', h, ?_, ?_, ?_, ?_, hreg, ?_⟩
      · rw [hb, set_mass_info_bodies]
      · rw [hx, set_mass_info_x]
      · rw [hy, set_mass_info_y]
      · rw [hz, set_mass_info_z]
      · intro b hbm; rw [hb, set_mass_info_bodies] at hbm; exact hbm
    by_cases hgt : (set_mass_info n').bodies.length > 1
    · obtain ⟨k', cs, hk, hr, hF⟩ := build_subtree_children (k + 1) _ r h hgt
      have hkk : k' = k := by omega
      subst hkk
      have hgt' : r.bodies.length > 1 := by rw [hb]; exact hgt
      rw [tree_nodes_eq, if_pos hgt', List.mem_cons] at hm
      rcases hm with rfl | hm
      · exact hroot
      · rw [hr, with_children_children, forest_nodes_eq] at hm
        obtain ⟨c, hc, hmc⟩ := List.mem_flatMap.1 hm
        obtain ⟨i, _, hi⟩ := forall₂_exists_left hF c hc
        have hi' : build_subtree k' (set_mass_info
            (bodies_in_node (new_child (set_mass_info n') i) (set_mass_info n').bodies))
            = some c := hi
        obtain ⟨k2, m', h1, h2, h3, h4, h5, h6, h7⟩ := ih _ c hi'
          (by
            intro b hbm
            rw [in_region_bodies_in_node]
            exact (List.mem_filter.1 hbm).2)
          m hmc
        refine ⟨k2, m', h1, h2, h3, h4, h5, h6, ?_⟩
        intro b hbm
        have := h7 b hbm
        have hmem := (List.mem_filter.1 this).1
        rw [set_mass_info_bodies] at hmem
        exact hmem
    · have hgt' : ¬ r.bodies.length > 1 := by rw [hb]; exact hgt
      rw [tree_nodes_eq, if_neg hgt', List.mem_singleton] at hm
      subst hm
      exact hroot

/-- Centre-of-mass consistency where it holds: in a tree built from bodies
of positive mass, a node that holds more than one body, none of them on one
of its splitting planes, has 8 children, and its centre of mass is the
average of the centres of mass of its children, each weighted with the
child's total mass. -/
theorem center_of_mass_of_children (fuel : Nat) (junk : List (Node α)) (bodies : List (Body α))
    (root : Node α) (h : barnes_hut_tree fuel junk bodies = some root)
    (hmass : ∀ b ∈ bodies, 0 < b.mass) (m : Node α) (hm : m ∈ tree_nodes root)
    (hgt : 1 < m.n_bodies) (hp : ∀ b ∈ m.bodies, ¬ on_splitting_plane m b) :
    m.children.length = 8
    ∧ children_com_x m = m.center_of_mass_x
    ∧ children_com_y m = m.center_of_mass_y
    ∧ children_com_z m = m.center_of_mass_z := by
  have h' : build_subtree fuel (set_mass_info
      (bodies_in_node (Node.mk junk [] (max_side_length bodies) 0 0 0 0 0 0 0) bodies))
      = some root := h
  obtain ⟨k, m', hb, hbod, hx, hy, hz, hreg, hsub⟩ := tree_nodes_built fuel _ root h'
    (by
      intro b hbm
      rw [in_region_bodies_in_node]
      exact (List.mem_filter.1 hbm).2)
    m hm
  have hmass' : ∀ b ∈ m'.bodies, 0 < b.mass := by
    intro b hbm
    rw [hbod] at hbm
    exact hmass b (List.mem_filter.1 (hsub b hbm)).1
  have hp' : ∀ b ∈ m'.bodies, ¬ on_splitting_plane m' b := by
    intro b hbm
    rw [hbod] at hbm
    have := hp b hbm
    unfold on_splitting_plane at this ⊢
    rw [hx, hy, hz]
    exact this
  obtain ⟨h8, s0, s1, s2, s3⟩ := children_sums k m' m hb (by rw [hbod]; exact hgt) hmass' hreg hp'
  have hM : m.total_mass = (m.bodies.map Body.mass).sum := by
    rw [(build_subtree_aggregates k _ m hb).1, (set_mass_info_aggregates m' hmass').1, hbod]
  have hpos : 0 < m.total_mass := by
    rw [hM]
    refine List.sum_pos _ ?_ ?_
    · intro x hx
      obtain ⟨b, hbm, rfl⟩ := List.mem_map.1 hx
      rw [← hbod] at hbm
      exact hmass' b hbm
    · intro hnil
      have : m.bodies = [] := by simpa using hnil
      rw [Node.n_bodies, this] at hgt
      simp at hgt
  have hne : m.total_mass ≠ 0 := ne_of_gt hpos
  refine ⟨h8, ?_, ?_, ?_⟩
  · rw [children_com_x, s0, s1]; field_simp
  · rw [children_com_y, s0, s2]; field_simp
  · rw [children_com_z, s0, s3]; field_simp

end C6

/-! ## The leaves partition the root's list, in exact arithmetic -/

section Partition
variable {α : Type} [LinearOrderedField α]

end Partition

/-! ## C11: the acceptance rule of `net_force` -/

section C11
variable {α : Type} [LinearOrderedField α]

theorem net_force_unfold (P : Params α) (body : Body α) (n : Node α) (force : α × α × α) :
    net_force P body n force
      = if is_self body n then force
        else if accepts P body n then add_point_mass P body n force
        else net_force_children P body n.children force := by
  cases n; rw [net_force]; rfl

end C11

section C12
variable {α : Type} [LinearOrderedField α]

theorem forall₂_enumFrom_map {β γ : Type} (R : β → γ → Prop) (g : Nat × β → γ)
    (h : ∀ i b, R b (g (i, b))) (l : List β) (k : Nat) :
    List.Forall₂ R l ((l.enumFrom k).map g) := by
  induction l generalizing k with
  | nil => exact List.Forall₂.nil
  | cons b l ih => exact List.Forall₂.cons (h k b) (ih (k + 1))

theorem forall₂_map_self {β γ : Type} (R : β → γ → Prop) (g : β → γ) (l : List β)
    (h : ∀ b ∈ l, R b (g b)) : List.Forall₂ R l (l.map g) := by
  induction l with
  | nil => exact List.Forall₂.nil
  | cons b l ih =>
    exact List.Forall₂.cons (h b (List.mem_cons_self _ _))
      (ih fun c hc => h c (List.mem_cons_of_mem _ hc))

/-- The two paths apply the same half-kick and drift. -/
theorem kick_drift_eq_naive (P : Params α) : kick_drift P = naive_kick_drift P := by
  funext b
  simp only [kick_drift, naive_kick_drift]
  congr 1 <;> ring

/-- The two paths apply the same second half-kick. -/
theorem kick_eq_naive (P : Params α) : kick P = naive_kick P := by
  funext b
  simp only [kick, naive_kick]
  congr 1 <;> ring

theorem get_forces_eq_map (P : Params α) (bodies : List (Body α)) (tree : Node α) :
    get_forces P bodies tree = bodies.map fun b =>
      { b with Fx := (net_force P b tree (0, 0, 0)).1, Fy := (net_force P b tree (0, 0, 0)).2.1,
               Fz := (net_force P b tree (0, 0, 0)).2.2 } := rfl

/-- One step that is not the first, where it returns. Both
`barnes_hut_step` and `naive_time_step` take every body of mass not 0 to the position
`x + (v + 0.5 * (F / m) * TIME_STEP) * TIME_STEP` and the velocity
`v + 0.5 * (F / m) * TIME_STEP + 0.5 * (F' / m) * TIME_STEP`, with `F` the
force stored on entry and `F'` the force stored on exit, body by body in
the order of the array; the two paths use the same two update functions;
`barnes_hut_step` returns whenever `barnes_hut_tree` does and the
`children` field of the root is `NULL` or the address of nodes. -/
theorem velocity_verlet_update (P : Params α) :
    (kick_drift P = naive_kick_drift P ∧ kick P = naive_kick P)
    ∧ (∀ fuel junk bodies out, barnes_hut_step P fuel junk bodies false = some out →
        List.Forall₂ (fun b o => b.mass ≠ 0 → verlet_update P b o) bodies out)
    ∧ (∀ bodies, List.Forall₂ (fun b o => b.mass ≠ 0 → verlet_update P b o) bodies
        (naive_time_step P bodies false))
    ∧ (∀ fuel junk bodies, (∃ tree, barnes_hut_tree fuel junk bodies = some tree) →
        ∃ out, barnes_hut_step P fuel junk bodies false = some out) := by
  refine ⟨⟨kick_drift_eq_naive P, kick_eq_naive P⟩, ?_, ?_, ?_⟩
  · intro fuel junk bodies out h
    unfold barnes_hut_step at h
    cases ht : barnes_hut_tree fuel junk bodies with
    | none => rw [ht] at h; exact absurd h (by simp)
    | some tree =>
      rw [ht] at h
      have e := Option.some.inj h
      subst e
      simp only [Bool.false_eq_true, if_false, get_forces_eq_map, List.map_map]
      refine forall₂_map_self _ _ _ ?_
      intro b _ _
      simp only [verlet_update, Function.comp, kick, kick_drift]
      refine ⟨?_, ?_, ?_, ?_, ?_, ?_⟩ <;> ring
  · intro bodies
    have key : naive_time_step P bodies false
        = ((bodies.map (naive_kick_drift P)).enumFrom 0).map
          ((naive_kick P) ∘ fun ib : Nat × Body α =>
            { ib.2 with
              Fx := (naive_force P (bodies.map (naive_kick_drift P)) ib.1 ib.2).1,
              Fy := (naive_force P (bodies.map (naive_kick_drift P)) ib.1 ib.2).2.1,
              Fz := (naive_force P (bodies.map (naive_kick_drift P)) ib.1 ib.2).2.2 }) := by
      rw [← List.map_map]
      rfl
    rw [key]
    have h1 := forall₂_enumFrom_map
      (fun (b1 : Body α) (o : Body α) =>
        o.x = b1.x ∧ o.y = b1.y ∧ o.z = b1.z
        ∧ o.vx = b1.vx + 1 / 2 * (o.Fx / b1.mass) * P.TIME_STEP
        ∧ o.vy = b1.vy + 1 / 2 * (o.Fy / b1.mass) * P.TIME_STEP
        ∧ o.vz = b1.vz + 1 / 2 * (o.Fz / b1.mass) * P.TIME_STEP)
      ((naive_kick P) ∘ fun ib : Nat × Body α =>
        { ib.2 with
          Fx := (naive_force P (bodies.map (naive_kick_drift P)) ib.1 ib.2).1,
          Fy := (naive_force P (bodies.map (naive_kick_drift P)) ib.1 ib.2).2.1,
          Fz := (naive_force P (bodies.map (naive_kick_drift P)) ib.1 ib.2).2.2 })
      (fun i b => ⟨rfl, rfl, rfl, rfl, rfl, rfl⟩)
      (bodies.map (naive_kick_drift P)) 0
    rw [List.forall₂_map_left_iff] at h1
    refine h1.imp ?_
    intro b o ⟨hx, hy, hz, hvx, hvy, hvz⟩ _
    exact ⟨hx, hy, hz, hvx, hvy, hvz⟩
  · rintro fuel junk bodies ⟨tree, ht⟩
    unfold barnes_hut_step
    rw [ht]
    exact ⟨_, rfl⟩

end C12

/-- A body that does not make `net_force` read the `children` field of a
node gets the same force whatever the field holds. -/
theorem net_force_of_not_reads {α : Type} [LinearOrderedField α] (P : Params α)
    (body : Body α) (n : Node α) (cs : List (Node α)) (force : α × α × α)
    (h : reads_children P body n = false) :
    net_force P body (with_children n cs) force = net_force P body n force := by
  obtain ⟨children, bodies, s, x, y, z, cx, cy, cz, m⟩ := n
  have hself : is_self body (with_children (Node.mk children bodies s x y z cx cy cz m) cs)
      = is_self body (Node.mk children bodies s x y z cx cy cz m) := rfl
  have hratio : ratio_below P body
      (with_children (Node.mk children bodies s x y z cx cy cz m) cs)
      = ratio_below P body (Node.mk children bodies s x y z cx cy cz m) := rfl
  rw [net_force_unfold, net_force_unfold, hself]
  by_cases h1 : is_self body (Node.mk children bodies s x y z cx cy cz m) = true
  · rw [if_pos h1, if_pos h1]
  · rw [if_neg h1, if_neg h1]
    have h2 : ratio_below P body (Node.mk children bodies s x y z cx cy cz m) = true := by
      simp only [reads_children, Bool.and_eq_false_iff, Bool.not_eq_false_eq_eq_true,
        Bool.not_eq_eq_eq_not, Bool.not_false] at h
      rcases h with h | h
      · exact absurd h h1
      · exact h
    have a1 : accepts P body (with_children (Node.mk children bodies s x y z cx cy cz m) cs)
        = true := by
      rw [accepts, hratio, h2]; rfl
    have a2 : accepts P body (Node.mk children bodies s x y z cx cy cz m) = true := by
      rw [accepts, h2]; rfl
    rw [if_pos a1, if_pos a2]
    rfl

/-- C12 at one body of mass 1 at rest at `(1, 0, 0)` with `EPS = 3` and
`THETA = 1/2`, in a step that is not the first: the root holds no body, so
`build_subtree` does not assign its `children` field, and the ratio test
fails, so `net_force` reads the field. When it holds a word that is no
address, the second `get_forces` is an invalid access and the step yields
no position and no velocity; `naive_time_step` yields the update, which
leaves the body where it is. -/
theorem C12_step_faults_on_unassigned_children :
    (barnes_hut_tree 0 [] one_body).map Node.n_bodies = some 0
    ∧ (barnes_hut_tree 0 [] one_body).map
        (fun root => reads_children (params_q 3 (1 / 2)) (body_at 0 1 0 0 1) root) = some true
    ∧ (barnes_hut_tree 0 [] one_body).map
        (fun root => get_forces_wild (params_q 3 (1 / 2))
          (one_body.map (kick_drift (params_q 3 (1 / 2)))) root) = some none
    ∧ barnes_hut_step_wild (params_q 3 (1 / 2)) 0 one_body false = none
    ∧ naive_time_step (params_q 3 (1 / 2)) one_body false = one_body := by
  decide!

/-! ## C13: the aggregates of `set_mass_info` -/

section C13
variable {α : Type} [LinearOrderedField α]

theorem set_mass_info_unfold (n : Node α) :
    set_mass_info n
      = if (n.bodies.map Body.mass).sum > 0 then
          Node.mk n.children n.bodies n.side_length n.x n.y n.z
            ((n.bodies.map fun b => b.mass * b.x).sum / (n.bodies.map Body.mass).sum)
            ((n.bodies.map fun b => b.mass * b.y).sum / (n.bodies.map Body.mass).sum)
            ((n.bodies.map fun b => b.mass * b.z).sum / (n.bodies.map Body.mass).sum)
            (n.bodies.map Body.mass).sum
        else Node.mk n.children n.bodies n.side_length n.x n.y n.z 0 0 0 0 := by
  simp only [set_mass_info, mass_sums_eq]

/-- No division of `set_mass_info` has a zero divisor. -/
theorem set_mass_info_checked_eq (n : Node α) :
    set_mass_info_checked n = some (set_mass_info n) := by
  simp only [set_mass_info_checked, set_mass_info, checked_div]
  split
  · rename_i hpos
    simp only [if_neg (ne_of_gt hpos)]
  · rfl

/-- C13, amended: `set_mass_info` sets the total mass to the sum of the
masses of the node's list when that sum is positive, and to 0 otherwise;
so it is the sum whenever the sum is not negative, as when no mass is
negative. When the sum is positive the centre of mass is the sum of the
masses times the positions, divided by the total mass; otherwise, as for an
empty list, it is `(0, 0, 0)`. No division has a zero divisor, and the
other fields of the node are left as they were. -/
theorem C13_aggregates (n : Node α) :
    ((set_mass_info n).total_mass
        = if (n.bodies.map Body.mass).sum > 0 then (n.bodies.map Body.mass).sum else 0)
    ∧ (0 ≤ (n.bodies.map Body.mass).sum →
        (set_mass_info n).total_mass = (n.bodies.map Body.mass).sum)
    ∧ ((∀ b ∈ n.bodies, 0 ≤ b.mass) →
        (set_mass_info n).total_mass = (n.bodies.map Body.mass).sum)
    ∧ ((n.bodies.map Body.mass).sum > 0 →
        (set_mass_info n).center_of_mass_x
            = (n.bodies.map fun b => b.mass * b.x).sum / (set_mass_info n).total_mass
        ∧ (set_mass_info n).center_of_mass_y
            = (n.bodies.map fun b => b.mass * b.y).sum / (set_mass_info n).total_mass
        ∧ (set_mass_info n).center_of_mass_z
            = (n.bodies.map fun b => b.mass * b.z).sum / (set_mass_info n).total_mass)
    ∧ (¬ (n.bodies.map Body.mass).sum > 0 →
        (set_mass_info n).total_mass = 0 ∧ (set_mass_info n).center_of_mass_x = 0
        ∧ (set_mass_info n).center_of_mass_y = 0 ∧ (set_mass_info n).center_of_mass_z = 0)
    ∧ (n.bodies = [] →
        (set_mass_info n).total_mass = 0 ∧ (set_mass_info n).center_of_mass_x = 0
        ∧ (set_mass_info n).center_of_mass_y = 0 ∧ (set_mass_info n).center_of_mass_z = 0)
    ∧ set_mass_info_checked n = some (set_mass_info n)
    ∧ ((set_mass_info n).children = n.children ∧ (set_mass_info n).bodies = n.bodies
        ∧ (set_mass_info n).side_length = n.side_length ∧ (set_mass_info n).x = n.x
        ∧ (set_mass_info n).y = n.y ∧ (set_mass_info n).z = n.z) := by
  have hneg : ¬ (n.bodies.map Body.mass).sum > 0 →
      (set_mass_info n).total_mass = 0 ∧ (set_mass_info n).center_of_mass_x = 0
      ∧ (set_mass_info n).center_of_mass_y = 0 ∧ (set_mass_info n).center_of_mass_z = 0 := by
    intro h
    rw [set_mass_info_unfold, if_neg h]
    exact ⟨rfl, rfl, rfl, rfl⟩
  have hnn : 0 ≤ (n.bodies.map Body.mass).sum →
      (set_mass_info n).total_mass = (n.bodies.map Body.mass).sum := by
    intro h
    rw [set_mass_info_total_mass]
    split
    · rfl
    · rename_i hle
      exact le_antisymm (le_of_not_gt hle) h |>.symm
  refine ⟨set_mass_info_total_mass n, hnn, ?_, ?_, hneg, ?_, set_mass_info_checked_eq n,
    set_mass_info_children n, set_mass_info_bodies n, set_mass_info_side_length n,
    set_mass_info_x n, set_mass_info_y n, set_mass_info_z n⟩
  · intro hm
    refine hnn (List.sum_nonneg ?_)
    intro x hx
    obtain ⟨b, hb, rfl⟩ := List.mem_map.1 hx
    exact hm b hb
  · intro h
    rw [set_mass_info_unfold, if_pos h]
    exact ⟨rfl, rfl, rfl⟩
  · intro h
    exact hneg (by rw [h]; simp)

end C13

/-- C13 fails as stated: for a node whose list holds one body of mass `-1`
the sum of the masses is `-1` and `set_mass_info` sets the total mass to
0. -/
theorem C13_counterexample :
    (negative_mass_node.bodies.map Body.mass).sum = -1
    ∧ (set_mass_info negative_mass_node).total_mass = 0
    ∧ (set_mass_info negative_mass_node).total_mass
        ≠ (negative_mass_node.bodies.map Body.mass).sum := by
  decide!

/-- C13, amended, at the root built for three bodies on a line: no mass is
negative, the total mass is the sum of the masses, 2, and the centre of
mass is `(3/2, 3, 3)`. -/
theorem C13_aggregates_witness :
    (∀ b ∈ line_root.bodies, 0 ≤ b.mass)
    ∧ (set_mass_info line_root).total_mass = (line_root.bodies.map Body.mass).sum
    ∧ (line_root.bodies.map Body.mass).sum = 2
    ∧ ((set_mass_info line_root).center_of_mass_x, (set_mass_info line_root).center_of_mass_y,
        (set_mass_info line_root).center_of_mass_z) = (3 / 2, 3, 3) := by
  have hm : ∀ b ∈ line_root.bodies, 0 ≤ b.mass := by
    have h : line_root.bodies.all (fun b => decide (0 ≤ b.mass)) = true := by decide!
    intro b hb
    exact of_decide_eq_true (List.all_eq_true.1 h b hb)
  exact ⟨hm, (C13_aggregates line_root).2.2.1 hm, by decide!, by decide!⟩


/-! ## C14: the frame of `get_forces` -/

section C14
variable {α : Type} [LinearOrderedField α]

omit [LinearOrderedField α] in
theorem is_self_congr (a b : Body α) (n : Node α) (h : a.id = b.id) :
    is_self a n = is_self b n := by
  unfold is_self
  rw [h]

theorem distance_congr (P : Params α) (a b : Body α) (n : Node α)
    (hx : a.x = b.x) (hy : a.y = b.y) (hz : a.z = b.z) :
    distance P a n = distance P b n := by
  unfold distance
  rw [hx, hy, hz]

theorem accepts_congr (P : Params α) (a b : Body α) (n : Node α)
    (hx : a.x = b.x) (hy : a.y = b.y) (hz : a.z = b.z) :
    accepts P a n = accepts P b n := by
  unfold accepts ratio_below
  rw [distance_congr P a b n hx hy hz]

theorem add_point_mass_congr (P : Params α) (a b : Body α) (n : Node α) (f : α × α × α)
    (h : same_but_force a b) : add_point_mass P a n f = add_point_mass P b n f := by
  obtain ⟨_, hx, hy, hz, _, _, _, hm⟩ := h
  unfold add_point_mass
  rw [distance_congr P a b n hx hy hz, hx, hy, hz, hm]

mutual
/-- `net_force` reads the id, the position and the mass of the query body,
not its stored force or its velocity. -/
theorem net_force_congr (P : Params α) (a b : Body α) (h : same_but_force a b) :
    ∀ (tree : Node α) (f : α × α × α), net_force P a tree f = net_force P b tree f
  | Node.mk children bodies s x y z cx cy cz m, f => by
    rw [net_force, net_force, is_self_congr a b _ h.1,
      accepts_congr P a b _ h.2.1 h.2.2.1 h.2.2.2.1, add_point_mass_congr P a b _ f h,
      net_force_children_congr P a b h children f]
/-- The same for the loop over the children. -/
theorem net_force_children_congr (P : Params α) (a b : Body α) (h : same_but_force a b) :
    ∀ (cs : List (Node α)) (f : α × α × α),
      net_force_children P a cs f = net_force_children P b cs f
  | [], f => by rw [net_force_children, net_force_children]
  | c :: cs, f => by
    rw [net_force_children, net_force_children, net_force_congr P a b h c f,
      net_force_children_congr P a b h cs _]
end

omit [LinearOrderedField α] in
theorem is_self_map_bodies (g : Body α → Body α) (hg : ∀ b, (g b).id = b.id) (a : Body α)
    (children : List (Node α)) (bodies : List (Body α)) (s x y z cx cy cz m : α)
    (children' : List (Node α)) :
    is_self a (Node.mk children' (bodies.map g) s x y z cx cy cz m)
      = is_self a (Node.mk children bodies s x y z cx cy cz m) := by
  unfold is_self
  simp only [Node.bodies]
  match bodies with
  | [] => rfl
  | [b0] => simp [hg]
  | _ :: _ :: _ => rfl

omit [LinearOrderedField α] in
theorem map_bodies_children_isEmpty (g : Body α → Body α) (cs : List (Node α)) :
    (map_bodies_children g cs).isEmpty = cs.isEmpty := by
  cases cs <;> simp [map_bodies_children]

mutual
/-- `net_force` reads, of the bodies a node points to, only the id: the
force is the same after any change of the bodies that keeps their ids. -/
theorem net_force_map_bodies (P : Params α) (g : Body α → Body α)
    (hg : ∀ b, (g b).id = b.id) (a : Body α) :
    ∀ (tree : Node α) (f : α × α × α),
      net_force P a (map_bodies g tree) f = net_force P a tree f
  | Node.mk children bodies s x y z cx cy cz m, f => by
    rw [map_bodies, net_force, net_force,
      is_self_map_bodies g hg a children bodies s x y z cx cy cz m]
    have hacc : accepts P a (Node.mk (map_bodies_children g children) (bodies.map g)
          s x y z cx cy cz m)
        = accepts P a (Node.mk children bodies s x y z cx cy cz m) := by
      simp only [accepts, ratio_below, distance, Node.children, Node.side_length,
        Node.center_of_mass_x, Node.center_of_mass_y, Node.center_of_mass_z,
        map_bodies_children_isEmpty]
    rw [hacc, net_force_map_bodies_children P g hg a children f]
    rfl
/-- The same for the loop over the children. -/
theorem net_force_map_bodies_children (P : Params α) (g : Body α → Body α)
    (hg : ∀ b, (g b).id = b.id) (a : Body α) :
    ∀ (cs : List (Node α)) (f : α × α × α),
      net_force_children P a (map_bodies_children g cs) f = net_force_children P a cs f
  | [], f => by rw [map_bodies_children]
  | c :: cs, f => by
    rw [map_bodies_children, net_force_children, net_force_children,
      net_force_map_bodies P g hg a c f, net_force_map_bodies_children P g hg a cs _]
end

/-- C14: `get_forces` returns as many bodies as it gets; each has the id,
position, velocity and mass it had, and as force what `net_force` adds to
`(0, 0, 0)` for it; two arrays that differ at most in the stored forces
give the same result, so the force stored before the call is not used. The
tree is an argument that `net_force` only reads; what it reads through the
body pointers of the nodes is the id alone, so the forces are those of the
tree as it was even though the bodies it points to are overwritten during
the call. -/
theorem C14_get_forces_frame (P : Params α) (bodies : List (Body α)) (tree : Node α) :
    (get_forces P bodies tree).length = bodies.length
    ∧ List.Forall₂
        (fun b o => o.id = b.id ∧ o.x = b.x ∧ o.y = b.y ∧ o.z = b.z
          ∧ o.vx = b.vx ∧ o.vy = b.vy ∧ o.vz = b.vz ∧ o.mass = b.mass
          ∧ (o.Fx, o.Fy, o.Fz) = net_force P b tree (0, 0, 0))
        bodies (get_forces P bodies tree)
    ∧ (∀ bodies', List.Forall₂ same_but_force bodies bodies' →
        get_forces P bodies tree = get_forces P bodies' tree)
    ∧ (∀ g : Body α → Body α, (∀ b, (g b).id = b.id) →
        get_forces P bodies (map_bodies g tree) = get_forces P bodies tree) := by
  refine ⟨?_, ?_, ?_, ?_⟩
  · simp [get_forces]
  · rw [get_forces_eq_map]
    refine forall₂_map_self _ _ _ ?_
    intro b _
    exact ⟨rfl, rfl, rfl, rfl, rfl, rfl, rfl, rfl, rfl⟩
  · intro bodies' h
    rw [get_forces_eq_map, get_forces_eq_map]
    induction h with
    | nil => rfl
    | cons hab _ ih =>
      rw [List.map_cons, List.map_cons, ih, net_force_congr P _ _ hab tree (0, 0, 0)]
      obtain ⟨h0, h1, h2, h3, h4, h5, h6, h7⟩ := hab
      rw [h0, h1, h2, h3, h4, h5, h6, h7]
  · intro g hg
    rw [get_forces_eq_map, get_forces_eq_map]
    refine List.map_congr_left ?_
    intro b _
    rw [net_force_map_bodies P g hg b tree (0, 0, 0)]

end C14

/-! ## The geometry of the octants, in exact arithmetic -/

section Octants
variable {α : Type} [LinearOrderedField α]

theorem build_subtree_in_region (fuel : Nat) (n r : Node α)
    (h : build_subtree fuel n = some r) : in_region r = in_region n := by
  obtain ⟨hx, hy, hz⟩ := build_subtree_center fuel n r h
  have hs := build_subtree_side_length fuel n r h
  funext b
  simp only [in_region, hx, hy, hz, hs]

end Octants

/-! ## C16: the list `bodies_in_node` sets -/

section C16
variable {α : Type} [LinearOrderedField α]

/-- The counter of the first loop of `bodies_in_node` is the length of the
list the second loop fills. -/
theorem count_in_node_eq (n : Node α) (bodies : List (Body α)) :
    count_in_node n bodies = (bodies.filter (in_region n)).length := by
  unfold count_in_node
  suffices h : ∀ k : Nat,
      bodies.foldl (fun counter b => if in_region n b then counter + 1 else counter) k
        = k + (bodies.filter (in_region n)).length by
    simpa using h 0
  induction bodies with
  | nil => intro k; simp
  | cons b l ih =>
    intro k
    rw [List.foldl_cons, ih]
    by_cases hb : in_region n b = true
    · simp [List.filter_cons, hb]; omega
    · simp [List.filter_cons, hb]

/-- The children of a subdivided node hold sub-lists of its list. -/
theorem children_bodies_sublist (fuel : Nat) (n r : Node α)
    (h : build_subtree fuel n = some r) (hgt : 1 < n.n_bodies) :
    ∀ c ∈ r.children, c.bodies = r.bodies.filter (in_region c)
      ∧ c.bodies.Sublist r.bodies := by
  obtain ⟨k, cs, _, hr, hF⟩ := build_subtree_children fuel n r h hgt
  subst hr
  rw [with_children_children, with_children_bodies]
  intro c hc
  obtain ⟨i, _, hi⟩ := forall₂_exists_left hF c hc
  have hb : c.bodies = n.bodies.filter (in_region c) := by
    rw [build_subtree_bodies k _ c hi, init_child_bodies, build_subtree_in_region k _ c hi,
      in_region_init_child]
  exact ⟨hb, by rw [hb]; exact List.filter_sublist _⟩

/-- C16: `bodies_in_node` sets the list of the node to the candidates whose
three coordinates are strictly between `center - side / 2` and
`center + side / 2`, in the order of the candidates, and `n_bodies` to the
number of these, leaving the other fields as they were; in a tree
`barnes_hut_tree` returns, the list of every child of a subdivided node is
a sub-list of the list of that node, made of its bodies that are in the
child's cube. -/
theorem C16_region_membership (n : Node α) (candidates : List (Body α)) :
    (bodies_in_node n candidates).bodies
      = candidates.filter (fun b => decide
          (n.x - n.side_length / 2 < b.x ∧ b.x < n.x + n.side_length / 2
          ∧ n.y - n.side_length / 2 < b.y ∧ b.y < n.y + n.side_length / 2
          ∧ n.z - n.side_length / 2 < b.z ∧ b.z < n.z + n.side_length / 2))
    ∧ (bodies_in_node n candidates).bodies.Sublist candidates
    ∧ (∀ b, b ∈ (bodies_in_node n candidates).bodies ↔
        b ∈ candidates
        ∧ (n.x - n.side_length / 2 < b.x ∧ b.x < n.x + n.side_length / 2)
        ∧ (n.y - n.side_length / 2 < b.y ∧ b.y < n.y + n.side_length / 2)
        ∧ (n.z - n.side_length / 2 < b.z ∧ b.z < n.z + n.side_length / 2))
    ∧ count_in_node n candidates = (bodies_in_node n candidates).n_bodies
    ∧ ((bodies_in_node n candidates).children = n.children
        ∧ (bodies_in_node n candidates).side_length = n.side_length
        ∧ (bodies_in_node n candidates).x = n.x ∧ (bodies_in_node n candidates).y = n.y
        ∧ (bodies_in_node n candidates).z = n.z)
    ∧ (∀ (fuel : Nat) (junk : List (Node α)) (bodies : List (Body α)) (root : Node α),
        barnes_hut_tree fuel junk bodies = some root →
        ∀ m ∈ tree_nodes root, 1 < m.n_bodies → ∀ c ∈ m.children,
          c.bodies = m.bodies.filter (in_region c) ∧ c.bodies.Sublist m.bodies) := by
  have hb : (bodies_in_node n candidates).bodies = candidates.filter (in_region n) := rfl
  refine ⟨?_, ?_, ?_, ?_, ⟨rfl, rfl, rfl, rfl, rfl⟩, ?_⟩
  · rw [hb]
    refine List.filter_congr ?_
    intro b _
    simp only [in_region, gt_iff_lt]
  · rw [hb]; exact List.filter_sublist _
  · intro b
    rw [hb, List.mem_filter, in_region_iff]
  · rw [count_in_node_eq, Node.n_bodies, hb]
  · intro fuel junk bodies root h m hm hgt
    have h' : build_subtree fuel (set_mass_info
        (bodies_in_node (Node.mk junk [] (max_side_length bodies) 0 0 0 0 0 0 0) bodies))
        = some root := h
    obtain ⟨k, m', hbuild, hbod, _, _, _, _, _⟩ := tree_nodes_built fuel _ root h'
      (by
        intro b hbm
        rw [in_region_bodies_in_node]
        exact (List.mem_filter.1 hbm).2)
      m hm
    exact children_bodies_sublist k _ m hbuild
      (by rw [Node.n_bodies, set_mass_info_bodies, hbod]; exact hgt)

end C16

/-- C16 at the root built for three bodies on a line: its only child that
holds a body holds the two bodies of the root, in the same order. -/
theorem C16_region_membership_witness :
    (barnes_hut_tree 2 [] bodies_on_line).map
        (fun root => (root.bodies.map Body.id,
          root.children.map fun c => c.bodies.map Body.id))
      = some ([0, 1], [[], [0, 1], [], [], [], [], [], []])
    ∧ ∃ root, barnes_hut_tree 2 [] bodies_on_line = some root
      ∧ ∀ c ∈ root.children, c.bodies.Sublist root.bodies := by
  refine ⟨by decide!, ?_⟩
  obtain ⟨root, h⟩ := Option.isSome_iff_exists.1
    (show (barnes_hut_tree 2 [] bodies_on_line).isSome = true by decide!)
  have hgt : (barnes_hut_tree 2 [] bodies_on_line).map (fun r => decide (1 < r.n_bodies))
      = some true := by decide!
  rw [h] at hgt
  refine ⟨root, h, fun c hc => ?_⟩
  exact (((C16_region_membership root []).2.2.2.2.2 2 [] bodies_on_line root h)
    root (mem_tree_nodes_self root) (of_decide_eq_true (Option.some.inj hgt)) c hc).2


/-! ## C17: all bodies at the origin -/

section C17
variable {α : Type} [LinearOrderedField α]

/-- When no body has a positive coordinate the loop of `max_side_length`
ends with 0. -/
theorem max_coord_of_nonpos (bodies : List (Body α))
    (h : ∀ b ∈ bodies, b.x ≤ 0 ∧ b.y ≤ 0 ∧ b.z ≤ 0) : max_coord bodies = 0 := by
  rw [max_coord_eq]
  induction bodies with
  | nil => rfl
  | cons b l ih =>
    obtain ⟨hx, hy, hz⟩ := h b (List.mem_cons_self _ _)
    rw [List.map_cons, List.foldr_cons, ih (fun c hc => h c (List.mem_cons_of_mem _ hc))]
    exact max_eq_right (max_le hx (max_le hy hz))

/-- When no body has a positive coordinate the root has side 0, an empty
list and zero aggregates, and keeps the `children` field it was allocated
with. -/
theorem root_init_of_nonpos (junk : List (Node α)) (bodies : List (Body α))
    (h : ∀ b ∈ bodies, b.x ≤ 0 ∧ b.y ≤ 0 ∧ b.z ≤ 0) :
    root_init junk bodies = Node.mk junk [] 0 0 0 0 0 0 0 0 := by
  have hs : max_side_length bodies = 0 := by
    rw [max_side_length, max_coord_of_nonpos bodies h, mul_zero]
  have hf : bodies.filter (in_region (Node.mk junk [] (0 : α) 0 0 0 0 0 0 0)) = [] := by
    rw [List.filter_eq_nil_iff]
    intro b _
    simp only [in_region, Node.x, Node.side_length, decide_eq_true_eq]
    intro hb
    have h1 := hb.1
    have h2 := hb.2.1
    simp only [zero_div, sub_zero, add_zero] at h1 h2
    exact lt_asymm h1 h2
  unfold root_init
  rw [hs]
  unfold bodies_in_node
  rw [hf]
  simp [set_mass_info, mass_sums, Node.bodies, Node.children, Node.side_length, Node.x, Node.y,
    Node.z]

theorem barnes_hut_tree_of_nonpos (fuel : Nat) (junk : List (Node α)) (bodies : List (Body α))
    (h : ∀ b ∈ bodies, b.x ≤ 0 ∧ b.y ≤ 0 ∧ b.z ≤ 0) :
    barnes_hut_tree fuel junk bodies = some (Node.mk junk [] 0 0 0 0 0 0 0 0) := by
  rw [barnes_hut_tree_eq, root_init_of_nonpos junk bodies h]
  exact build_subtree_of_le fuel _ (by simp [Node.bodies])

/-- At a root of side 0 with no body, the base case of `net_force` is
executed at the root, and adds nothing, when the distance is not 0 and
either `THETA` is positive or the `children` field holds `NULL`. -/
theorem net_force_empty_root (P : Params α) (junk : List (Node α)) (body : Body α)
    (f : α × α × α)
    (hd : distance P body (Node.mk junk [] 0 0 0 0 0 0 0 0) ≠ 0)
    (h : 0 < P.THETA ∨ junk = []) :
    accumulated P body (Node.mk junk [] 0 0 0 0 0 0 0 0) = [Node.mk junk [] 0 0 0 0 0 0 0 0]
    ∧ net_force P body (Node.mk junk [] 0 0 0 0 0 0 0 0) f = f
    ∧ (0 < P.THETA → ratio_below P body (Node.mk junk [] 0 0 0 0 0 0 0 0) = true) := by
  have hr : 0 < P.THETA → ratio_below P body (Node.mk junk [] 0 0 0 0 0 0 0 0) = true := by
    intro hθ
    rw [ratio_below, if_neg hd]
    simp [Node.side_length, hθ]
  have hself : is_self body (Node.mk junk [] (0 : α) 0 0 0 0 0 0 0) = false := rfl
  have hacc : accepts P body (Node.mk junk [] 0 0 0 0 0 0 0 0) = true := by
    rcases h with hθ | hj
    · simp [accepts, hr hθ]
    · simp [accepts, hj, Node.children]
  have ha := accumulated_of_accepts P body _ hself hacc
  refine ⟨ha, ?_, hr⟩
  rw [net_force_eq_foldl, ha]
  simp [add_point_mass, Node.total_mass]

/-- When all bodies are at the origin, `THETA > 0` and `EPS > 0` (with a
square root that is not 0 on positive numbers, so that no distance is 0),
`barnes_hut_tree` returns, whatever the depth allowed, a root of side 0,
and for every query body `net_force` passes the ratio test at the root,
executes the base case there and on no other node, and adds nothing to the
force, whatever the `children` field of the root holds. -/
theorem degenerate_root_of_eps_pos (P : Params α) (fuel : Nat) (junk : List (Node α))
    (bodies : List (Body α)) (horigin : ∀ b ∈ bodies, b.x = 0 ∧ b.y = 0 ∧ b.z = 0)
    (hθ : 0 < P.THETA) (hE : 0 < P.EPS) (hsqrt : ∀ x, 0 < x → P.sqrt x ≠ 0) :
    ∃ root, barnes_hut_tree fuel junk bodies = some root
      ∧ root.side_length = 0
      ∧ ∀ (body : Body α) (force : α × α × α),
          ratio_below P body root = true
          ∧ accumulated P body root = [root]
          ∧ net_force P body root force = force := by
  have hnp : ∀ b ∈ bodies, b.x ≤ 0 ∧ b.y ≤ 0 ∧ b.z ≤ 0 := by
    intro b hb
    obtain ⟨hx, hy, hz⟩ := horigin b hb
    exact ⟨le_of_eq hx, le_of_eq hy, le_of_eq hz⟩
  refine ⟨_, barnes_hut_tree_of_nonpos fuel junk bodies hnp, rfl, ?_⟩
  intro body force
  have hd : distance P body (Node.mk junk [] 0 0 0 0 0 0 0 0) ≠ 0 := by
    unfold distance
    refine hsqrt _ ?_
    simp only [Node.center_of_mass_x, Node.center_of_mass_y, Node.center_of_mass_z, sub_zero]
    positivity
  obtain ⟨h1, h2, h3⟩ := net_force_empty_root P junk body force hd (Or.inl hθ)
  exact ⟨h3 hθ, h1, h2⟩

end C17

/-- The rational square root is not 0 on positive numbers. -/
theorem rat_sqrt_ne_zero (x : ℚ) (hx : 0 < x) : Rat.sqrt x ≠ 0 := by
  unfold Rat.sqrt
  have hd : Nat.sqrt x.den ≠ 0 := by
    have := Nat.sqrt_pos.2 x.den_pos
    omega
  rw [Rat.mkRat_ne_zero hd]
  have hn : 0 < x.num := Rat.num_pos.2 hx
  intro h0
  have h1 : Nat.sqrt x.num.toNat = 0 := by
    unfold Int.sqrt at h0
    exact_mod_cast h0
  have h2 := Nat.sqrt_pos.2 (show 0 < x.num.toNat by omega)
  omega

/-- C17 at one body at the origin with `THETA = 1` and `EPS = 0`: the root
has side 0 and the distance is 0, so the ratio test fails (`0 / 0` in the
source) and the `children` field of the root, which `barnes_hut_tree` does
not assign, decides. When it is `NULL` the base case is executed at the
root; when it holds a pointer to a node of mass 1, the base case is
executed on that node and not on the root, whose mass is 0. -/
theorem C17_origin_root_reads_children :
    (barnes_hut_tree 0 [stale_node] origin_body).map Node.side_length = some 0
    ∧ (barnes_hut_tree 0 [stale_node] origin_body).map Node.total_mass = some 0
    ∧ (barnes_hut_tree 0 [stale_node] origin_body).map
        (fun root => distance (params_q 0 1) (body_at 0 0 0 0 1) root) = some 0
    ∧ (barnes_hut_tree 0 [stale_node] origin_body).map
        (fun root => ratio_below (params_q 0 1) (body_at 0 0 0 0 1) root) = some false
    ∧ (barnes_hut_tree 0 [] origin_body).map
        (fun root => (accumulated (params_q 0 1) (body_at 0 0 0 0 1) root).map Node.total_mass)
      = some [0]
    ∧ (barnes_hut_tree 0 [stale_node] origin_body).map
        (fun root => (accumulated (params_q 0 1) (body_at 0 0 0 0 1) root).map Node.total_mass)
      = some [1] := by
  decide!

/-! ## C18: the root leaves a body out -/

section C18
variable {α : Type} [LinearOrderedField α]

/-- A body with a coordinate equal to half the side of the root is not in
the open cube of the root. -/
theorem not_in_root_of_on_face (junk : List (Node α)) (bodies : List (Body α)) (b : Body α)
    (h : b.x = max_coord bodies ∨ b.y = max_coord bodies ∨ b.z = max_coord bodies) :
    in_region (root_init junk bodies) b = false := by
  rw [root_init, in_region_set_mass_info, in_region_bodies_in_node]
  simp only [in_region, max_side_length, Node.x, Node.y, Node.z, Node.side_length,
    decide_eq_false_iff_not]
  intro hin
  have e : (0 : α) + 2 * max_coord bodies / 2 = max_coord bodies := by ring
  rw [e] at hin
  rcases h with h1 | h1 | h1
  · exact absurd hin.2.1 (by rw [h1]; exact lt_irrefl _)
  · exact absurd hin.2.2.2.1 (by rw [h1]; exact lt_irrefl _)
  · exact absurd hin.2.2.2.2.2 (by rw [h1]; exact lt_irrefl _)

theorem not_mem_root_of_not_in_region (junk : List (Node α)) (bodies : List (Body α))
    (b : Body α) (h : in_region (root_init junk bodies) b = false) :
    b ∉ (root_init junk bodies).bodies := by
  rw [root_init_bodies]
  intro hb
  have := (List.mem_filter.1 hb).2
  rw [root_init, in_region_set_mass_info, in_region_bodies_in_node] at h
  rw [h] at this
  exact absurd this (by simp)

/-- In exact arithmetic the root built from a non-empty set of bodies
leaves at least one of them out of its list. Half the side of the root is the largest
coordinate when some coordinate is positive; a body with a coordinate equal
to half the side, and there is one then, is on a face of the root cube,
fails the strict test and is not in the list. When no body has a positive
coordinate the root is returned whatever the depth allowed, has side 0, an
empty list and total mass 0, and the force `get_forces` stores is
`(0, 0, 0)` for every body, provided no distance is 0 and either `THETA` is
positive or the `children` field of the root was `NULL` on allocation. -/
theorem root_drops_a_body (junk : List (Node α)) (bodies : List (Body α))
    (hN : bodies ≠ []) :
    (∀ fuel root, barnes_hut_tree fuel junk bodies = some root →
      (∃ b ∈ bodies, b ∉ root.bodies)
      ∧ root.side_length / 2 = max_coord bodies
      ∧ (∀ b ∈ bodies,
          (b.x = root.side_length / 2 ∨ b.y = root.side_length / 2
            ∨ b.z = root.side_length / 2) →
          in_region root b = false ∧ b ∉ root.bodies)
      ∧ ((∃ b ∈ bodies, 0 < b.x ∨ 0 < b.y ∨ 0 < b.z) →
          0 < root.side_length
          ∧ ∃ b ∈ bodies, (b.x = root.side_length / 2 ∨ b.y = root.side_length / 2
            ∨ b.z = root.side_length / 2)))
    ∧ ((∀ b ∈ bodies, b.x ≤ 0 ∧ b.y ≤ 0 ∧ b.z ≤ 0) →
        ∀ fuel, ∃ root, barnes_hut_tree fuel junk bodies = some root
          ∧ root.side_length = 0 ∧ root.bodies = [] ∧ root.total_mass = 0
          ∧ ∀ P : Params α, (∀ b ∈ bodies, distance P b root ≠ 0) →
              (0 < P.THETA ∨ junk = []) →
              ∀ o ∈ get_forces P bodies root, o.force = (0, 0, 0)) := by
  refine ⟨?_, ?_⟩
  · intro fuel root h
    rw [barnes_hut_tree_eq] at h
    have hb := build_subtree_bodies fuel _ root h
    have hreg := build_subtree_in_region fuel _ root h
    have hside : root.side_length / 2 = max_coord bodies := by
      rw [build_subtree_side_length fuel _ root h, root_init_side_length, max_side_length]
      ring
    have hface : ∀ b ∈ bodies,
        (b.x = root.side_length / 2 ∨ b.y = root.side_length / 2
          ∨ b.z = root.side_length / 2) →
        in_region root b = false ∧ b ∉ root.bodies := by
      intro b _ hf
      rw [hside] at hf
      have := not_in_root_of_on_face junk bodies b hf
      rw [hreg, hb]
      exact ⟨this, not_mem_root_of_not_in_region junk bodies b this⟩
    refine ⟨?_, hside, hface, ?_⟩
    · obtain ⟨b, hbm, hout⟩ := exists_not_in_root junk bodies hN
      refine ⟨b, hbm, ?_⟩
      rw [hb, root_init_bodies]
      intro hmem
      have := (List.mem_filter.1 hmem).2
      rw [hout] at this
      exact absurd this (by simp)
    · rintro ⟨b, hbm, hpos⟩
      obtain ⟨hx, hy, hz⟩ := le_max_coord bodies b hbm
      have hmax : 0 < max_coord bodies := by
        rcases hpos with h1 | h1 | h1
        · exact lt_of_lt_of_le h1 hx
        · exact lt_of_lt_of_le h1 hy
        · exact lt_of_lt_of_le h1 hz
      refine ⟨by linarith, ?_⟩
      rcases max_coord_attained bodies with h0 | ⟨c, hc, hatt⟩
      · exact absurd h0 (ne_of_gt hmax)
      · exact ⟨c, hc, by rw [hside]; exact hatt⟩
  · intro hnp fuel
    refine ⟨_, barnes_hut_tree_of_nonpos fuel junk bodies hnp, rfl, rfl, rfl, ?_⟩
    intro P hd hbranch o ho
    rw [get_forces_eq_map] at ho
    obtain ⟨b, hbm, rfl⟩ := List.mem_map.1 ho
    have := (net_force_empty_root P junk b (0, 0, 0) (hd b hbm) hbranch).2.1
    simp only [Body.force, this]

end C18

/-- C18 at one body at `(-1, 0, 0)` with `THETA = 0` and `EPS = 3`: the
root has side 0 and no body, the ratio test `0 < 0` fails, and the
`children` field of the root, which `barnes_hut_tree` does not assign,
decides. When it is `NULL` the force stored is `(0, 0, 0)`; when it holds a
pointer to a node of mass 1 at the origin, the force stored is
`(1/8, 0, 0)`. -/
theorem C18_force_from_unassigned_children :
    (barnes_hut_tree 0 [stale_node] one_body_neg).map
        (fun root => (root.side_length, root.n_bodies)) = some (0, 0)
    ∧ (barnes_hut_tree 0 [] one_body_neg).map
        (fun root => (get_forces (params_q 3 0) one_body_neg root).map Body.force)
      = some [(0, 0, 0)]
    ∧ (barnes_hut_tree 0 [stale_node] one_body_neg).map
        (fun root => (get_forces (params_q 3 0) one_body_neg root).map Body.force)
      = some [(1 / 8, 0, 0)] := by
  decide!
/-! ## C19: termination of the tree construction -/

section C19
variable {α : Type} [LinearOrderedField α]

/-- A list of results with a failure in it has no list of values. -/
theorem all_some_map_none {β γ : Type} (f : γ → Option β) (l : List γ)
    (h : ∃ i ∈ l, f i = none) : all_some (l.map f) = none := by
  induction l with
  | nil => obtain ⟨i, hi, _⟩ := h; simp at hi
  | cons j l ih =>
    obtain ⟨i, hi, hnone⟩ := h
    rw [List.map_cons]
    cases hj : f j with
    | none => rfl
    | some c =>
      rcases List.mem_cons.1 hi with rfl | hi
      · rw [hnone] at hj; exact absurd hj (by simp)
      · simp only [all_some, ih ⟨i, hi, hnone⟩]

/-- One step of `build_subtree` at a positive depth. -/
theorem build_subtree_succ (fuel : Nat) (n : Node α) :
    build_subtree (fuel + 1) n
      = if n.n_bodies > 1 then
          match all_some ((List.range 8).map fun i => build_subtree fuel (init_child n i)) with
          | none => none
          | some cs => some (with_children n cs)
        else some n := rfl

/-- A node holding two bodies or more with a child that is not built is not
built. -/
theorem build_subtree_none (fuel : Nat) (n : Node α) (hgt : n.bodies.length > 1)
    (h : ∃ i ∈ List.range 8, build_subtree fuel (init_child n i) = none) :
    build_subtree (fuel + 1) n = none := by
  simp only [build_subtree, Node.n_bodies, if_pos hgt, all_some_map_none _ _ h]

/-- The octant index of a body is below 8. -/
theorem octant_of_lt (n : Node α) (b : Body α) : octant_of n b < 8 := by
  unfold octant_of
  split_ifs <;> omega

/-- A body in the open cube of a node and on none of its splitting planes
is in the open cube of the child `octant_of` names. -/
theorem in_region_octant_of (n : Node α) (b : Body α) (h : in_region n b = true)
    (hp : ¬ on_splitting_plane n b) :
    in_region (new_child n (octant_of n b)) b = true := by
  rw [new_child_region n _ (octant_of_lt n b)]
  rw [in_region_iff] at h
  obtain ⟨⟨hx1, hx2⟩, ⟨hy1, hy2⟩, ⟨hz1, hz2⟩⟩ := h
  have hx : b.x ≠ n.x := fun e => hp (Or.inl e)
  have hy : b.y ≠ n.y := fun e => hp (Or.inr (Or.inl e))
  have hz : b.z ≠ n.z := fun e => hp (Or.inr (Or.inr e))
  unfold octant_of
  rcases lt_or_gt_of_ne hx with cx | cx <;> rcases lt_or_gt_of_ne hy with cy | cy <;>
    rcases lt_or_gt_of_ne hz with cz | cz <;>
    simp only [cx, cy, cz, not_lt_of_gt cx, not_lt_of_gt cy, not_lt_of_gt cz, if_true,
      if_false] <;>
    norm_num <;>
    refine ⟨?_, ?_, ?_⟩ <;>
    assumption

/-- Membership in a cube depends on the position only. -/
theorem in_region_of_same_pos (n : Node α) (a b : Body α)
    (h : a.x = b.x ∧ a.y = b.y ∧ a.z = b.z) : in_region n a = in_region n b := by
  unfold in_region
  rw [h.1, h.2.1, h.2.2]

/-- Two bodies at one position, in the list of a node: as long as the
position is on no splitting plane of the nodes that hold it, the node `k`
levels down holds both, and `build_subtree` does not return within depth
`k`. -/
theorem build_subtree_twins (k : Nat) : ∀ (n : Node α) (a b : Body α),
    [a, b].Sublist n.bodies → (a.x = b.x ∧ a.y = b.y ∧ a.z = b.z) →
    in_region n a = true →
    (∀ j < k, ¬ on_splitting_plane (cube_at a j n) a) →
    build_subtree k n = none ∧ [a, b].Sublist (cube_at a k n).bodies := by
  induction k with
  | zero =>
    intro n a b hsub _ _ _
    have hlen : n.bodies.length > 1 := by
      have := hsub.length_le
      simpa using this
    exact ⟨by simp only [build_subtree, Node.n_bodies, if_pos hlen], hsub⟩
  | succ k ih =>
    intro n a b hsub hpos hin hplane
    have hlen : n.bodies.length > 1 := by
      have := hsub.length_le
      simpa using this
    have h0 : ¬ on_splitting_plane n a := hplane 0 (Nat.succ_pos k)
    have ha : in_region (new_child n (octant_of n a)) a = true := in_region_octant_of n a hin h0
    have hb : in_region (new_child n (octant_of n a)) b = true := by
      rw [← in_region_of_same_pos _ a b hpos]; exact ha
    have hsub' : [a, b].Sublist (init_child n (octant_of n a)).bodies := by
      rw [init_child_bodies]
      have := hsub.filter (in_region (new_child n (octant_of n a)))
      simpa [List.filter_cons, ha, hb] using this
    have hin' : in_region (init_child n (octant_of n a)) a = true := by
      rw [in_region_init_child]; exact ha
    obtain ⟨h1, h2⟩ := ih (init_child n (octant_of n a)) a b hsub' hpos hin'
      (fun j hj => hplane (j + 1) (Nat.succ_lt_succ hj))
    exact ⟨build_subtree_none k n hlen ⟨_, List.mem_range.2 (octant_of_lt n a), h1⟩, h2⟩

/-- A result of `build_subtree` does not depend on the depth allowed, once
that suffices. -/
theorem build_subtree_mono (k : Nat) : ∀ (n r : Node α),
    build_subtree k n = some r → build_subtree (k + 1) n = some r := by
  induction k with
  | zero =>
    intro n r h
    by_cases hgt : n.bodies.length > 1
    · obtain ⟨j, _, hj, _⟩ := build_subtree_children 0 n r h hgt
      omega
    · rw [build_subtree_of_le 0 n hgt] at h
      rw [build_subtree_of_le 1 n hgt]
      exact h
  | succ k ih =>
    intro n r h
    by_cases hgt : n.bodies.length > 1
    · obtain ⟨k', cs, hk, hr, hF⟩ := build_subtree_children (k + 1) n r h hgt
      have hkk : k' = k := by omega
      subst hkk
      have hF' : List.Forall₂ (fun i c => build_subtree (k' + 1) (init_child n i) = some c)
          (List.range 8) cs := hF.imp (fun i c hc => ih _ c hc)
      have := (all_some_map_eq_some_iff
        (fun i => build_subtree (k' + 1) (init_child n i)) (List.range 8) cs).2 hF'
      have hgt' : n.n_bodies > 1 := hgt
      rw [build_subtree_succ, if_pos hgt', this, hr]
    · rw [build_subtree_of_le (k + 1) n hgt] at h
      rw [build_subtree_of_le (k + 2) n hgt]
      exact h

/-- Two bodies in the open cube of a node differ by less than its side in
every coordinate. -/
theorem abs_sub_lt_side (n : Node α) (a b : Body α) (ha : in_region n a = true)
    (hb : in_region n b = true) :
    |a.x - b.x| < n.side_length ∧ |a.y - b.y| < n.side_length
    ∧ |a.z - b.z| < n.side_length := by
  rw [in_region_iff] at ha hb
  obtain ⟨⟨ax1, ax2⟩, ⟨ay1, ay2⟩, ⟨az1, az2⟩⟩ := ha
  obtain ⟨⟨bx1, bx2⟩, ⟨by1, by2⟩, ⟨bz1, bz2⟩⟩ := hb
  exact ⟨abs_sub_lt_iff.2 ⟨by linarith, by linarith⟩, abs_sub_lt_iff.2 ⟨by linarith, by linarith⟩,
    abs_sub_lt_iff.2 ⟨by linarith, by linarith⟩⟩

/-- A node built with some depth is built the same with every larger depth. -/
theorem build_subtree_mono_le (k k' : Nat) (hk : k ≤ k') (n r : Node α)
    (h : build_subtree k n = some r) : build_subtree k' n = some r := by
  induction k' with
  | zero =>
    have : k = 0 := by omega
    subst this
    exact h
  | succ j ih =>
    rcases Nat.eq_or_lt_of_le hk with rfl | hlt
    · exact h
    · exact build_subtree_mono j n r (ih (by omega))

/-- C19: for bodies at pairwise different positions `build_subtree`
terminates: `barnes_hut_tree` returns a root with some depth and the same
root with every larger depth; the bodies are some positive gap apart, each
pair in some coordinate, and depth `k` suffices once the side of the root
is at most `2 ^ k` times that gap, because two bodies in one open cube
differ by less than its side in every coordinate, so that a cube of side at
most the gap holds at most one body. For two bodies at one position in the
list of the root it does not terminate as long as the position stays off
the splitting planes: if it is on no splitting plane of the nodes that hold
it down to level `k`, the node at level `k` holds both bodies and
`barnes_hut_tree` does not return within depth `k`. -/
theorem C19_termination [Archimedean α] (junk : List (Node α)) (bodies : List (Body α)) :
    (bodies.Pairwise pos_ne →
      (∃ fuel root, barnes_hut_tree fuel junk bodies = some root
        ∧ ∀ fuel', fuel ≤ fuel' → barnes_hut_tree fuel' junk bodies = some root)
      ∧ ∃ δ : α, 0 < δ ∧ separated δ bodies
        ∧ ∀ k : Nat, (root_init junk bodies).side_length ≤ δ * 2 ^ k →
            ∃ root, barnes_hut_tree k junk bodies = some root)
    ∧ (∀ (n : Node α) (a b : Body α), in_region n a = true → in_region n b = true →
        |a.x - b.x| < n.side_length ∧ |a.y - b.y| < n.side_length
        ∧ |a.z - b.z| < n.side_length)
    ∧ (∀ (δ : α) (n : Node α), separated δ n.bodies →
        (∀ b ∈ n.bodies, in_region n b = true) → n.side_length ≤ δ → n.n_bodies ≤ 1)
    ∧ (∀ (a b : Body α) (k : Nat), [a, b].Sublist (root_init junk bodies).bodies →
        (a.x = b.x ∧ a.y = b.y ∧ a.z = b.z) →
        (∀ j < k, ¬ on_splitting_plane (cube_at a j (root_init junk bodies)) a) →
        barnes_hut_tree k junk bodies = none
        ∧ [a, b].Sublist (cube_at a k (root_init junk bodies)).bodies) := by
  have hrootreg : ∀ b ∈ (root_init junk bodies).bodies,
      in_region (root_init junk bodies) b = true := by
    intro b hb
    rw [root_init_bodies] at hb
    rw [root_init, in_region_set_mass_info, in_region_bodies_in_node]
    exact (List.mem_filter.1 hb).2
  refine ⟨?_, abs_sub_lt_side, ?_, ?_⟩
  · intro hd
    refine ⟨?_, ?_⟩
    · obtain ⟨fuel, root, h⟩ := barnes_hut_tree_returns junk bodies hd
      exact ⟨fuel, root, h, fun fuel' hle => build_subtree_mono_le fuel fuel' hle _ root h⟩
    · obtain ⟨δ, hδ, hsep⟩ := exists_separated bodies hd
      refine ⟨δ, hδ, hsep, ?_⟩
      intro k hk
      exact build_subtree_returns δ k (root_init junk bodies)
        (by rw [root_init_bodies]; exact List.Pairwise.sublist (List.filter_sublist _) hsep)
        hrootreg hk
  · intro δ n hsep hreg hs
    by_contra hgt
    exact absurd (side_gt_of_two δ n hsep hreg (not_le.1 hgt)) (not_lt.2 hs)
  · intro a b k hsub hpos hplane
    have ha : a ∈ (root_init junk bodies).bodies := hsub.subset (List.mem_cons_self _ _)
    exact build_subtree_twins k (root_init junk bodies) a b hsub hpos (hrootreg a ha) hplane

end C19

/-- C19 at three bodies on a line, which `barnes_hut_tree` builds, and at
two bodies at `(1, 2, 2)` with a third at `(3, 6, 6)`: the position is on
no splitting plane down to level 3 and `barnes_hut_tree` does not return
within depth 3. -/
theorem C19_termination_witness :
    (∃ fuel root, barnes_hut_tree fuel [] bodies_on_line = some root
      ∧ ∀ fuel', fuel ≤ fuel' → barnes_hut_tree fuel' [] bodies_on_line = some root)
    ∧ barnes_hut_tree 3 [] twin_bodies = none := by
  refine ⟨((C19_termination [] bodies_on_line).1
    (by simp [bodies_on_line, body_at, pos_ne])).1, ?_⟩
  refine ((C19_termination [] twin_bodies).2.2.2 (body_at 0 1 2 2 1) (body_at 1 1 2 2 1) 3
    (by decide!) ⟨rfl, rfl, rfl⟩ ?_).1
  intro j hj
  interval_cases j <;> unfold on_splitting_plane <;> decide!

/-! ## C20: momentum on the brute-force path -/

section C20
variable {α : Type} [LinearOrderedField α]

/-- The pair terms of `naive_get_forces` are antisymmetric. -/
theorem pair_force_antisymm (P : Params α) (a b : Body α) :
    pair_force P a b = - pair_force P b a := by
  have h : (a.x - b.x) ^ 2 + (a.y - b.y) ^ 2 + (a.z - b.z) ^ 2 + P.EPS
      = (b.x - a.x) ^ 2 + (b.y - a.y) ^ 2 + (b.z - a.z) ^ 2 + P.EPS := by ring
  simp only [pair_force, h, Prod.neg_mk, Prod.mk.injEq]
  refine ⟨?_, ?_, ?_⟩ <;> ring

/-- The inner loop of `naive_get_forces` adds the pair terms of the other
bodies to its start value. -/
theorem naive_force_foldl (P : Params α) (i : Nat) (bi : Body α) (l : List (Nat × Body α))
    (acc : α × α × α) :
    l.foldl
      (fun force jb =>
        if i = jb.1 then force
        else
          let r2 := (bi.x - jb.2.x) ^ 2 + (bi.y - jb.2.y) ^ 2 + (bi.z - jb.2.z) ^ 2 + P.EPS
          let r3 := P.pow_1_5 r2
          let f := P.G * bi.mass * jb.2.mass / r3
          (force.1 + f * (jb.2.x - bi.x), force.2.1 + f * (jb.2.y - bi.y),
            force.2.2 + f * (jb.2.z - bi.z)))
      acc
    = acc + (l.map fun jb => if i = jb.1 then 0 else pair_force P bi jb.2).sum := by
  induction l generalizing acc with
  | nil => simp
  | cons jb l ih =>
    rw [List.foldl_cons, ih, List.map_cons, List.sum_cons, ← add_assoc]
    congr 1
    by_cases hij : i = jb.1
    · simp [hij]
    · simp only [if_neg hij, pair_force]
      rfl

/-- The force `naive_get_forces` stores in body `i` is the sum of the pair
terms of the other bodies. -/
theorem naive_force_eq_sum (P : Params α) (bodies : List (Body α)) (i : Nat) (bi : Body α) :
    naive_force P bodies i bi
      = (bodies.enum.map fun jb => if i = jb.1 then 0 else pair_force P bi jb.2).sum := by
  have hz : ((0, 0, 0) : α × α × α) = 0 := rfl
  rw [naive_force, naive_force_foldl, hz, zero_add]

/-- A double sum of antisymmetric terms that vanish on the diagonal is
zero. -/
theorem sum_sum_antisymm {β M : Type} [AddCommGroup M] (g : β → β → M)
    (hanti : ∀ p q, g p q = - g q p) (hdiag : ∀ p, g p p = 0) (l : List β) :
    (l.map fun p => (l.map fun q => g p q).sum).sum = 0 := by
  induction l with
  | nil => rfl
  | cons a l ih =>
    simp only [List.map_cons, List.sum_cons, hdiag, zero_add]
    rw [List.sum_map_add, ih, add_zero, ← List.sum_map_add]
    have : (fun q => g a q + g q a) = fun _ => (0 : M) := by
      funext q
      rw [hanti a q, neg_add_cancel]
    rw [this]
    simp

/-- The forces stored by `naive_get_forces` sum to zero. -/
theorem total_force_naive_get_forces (P : Params α) (bodies : List (Body α)) :
    total_force (naive_get_forces P bodies) = 0 := by
  have key : (naive_get_forces P bodies).map Body.force
      = bodies.enum.map fun ib => (bodies.enum.map fun jb =>
          if ib.1 = jb.1 then 0 else pair_force P ib.2 jb.2).sum := by
    rw [naive_get_forces, List.map_map]
    refine List.map_congr_left fun ib _ => ?_
    rw [← naive_force_eq_sum]
    rfl
  rw [total_force, key]
  refine sum_sum_antisymm (fun (ib jb : Nat × Body α) =>
    if ib.1 = jb.1 then 0 else pair_force P ib.2 jb.2) ?_ ?_ bodies.enum
  · intro p q
    by_cases h : p.1 = q.1
    · simp [h]
    · show (if p.1 = q.1 then 0 else pair_force P p.2 q.2)
        = - (if q.1 = p.1 then 0 else pair_force P q.2 p.2)
      rw [if_neg h, if_neg (Ne.symm h)]
      exact pair_force_antisymm P p.2 q.2
  · intro p
    simp

/-- The function `naive_get_forces` leaves masses and velocities as they
are. -/
theorem naive_get_forces_map (P : Params α) (bodies : List (Body α)) {γ : Type}
    (f : Body α → γ)
    (hf : ∀ (b : Body α) (F : α × α × α),
      f { b with Fx := F.1, Fy := F.2.1, Fz := F.2.2 } = f b) :
    (naive_get_forces P bodies).map f = bodies.map f := by
  rw [naive_get_forces, List.map_map]
  have : (f ∘ fun ib : Nat × Body α =>
      let force := naive_force P bodies ib.1 ib.2
      { ib.2 with Fx := force.1, Fy := force.2.1, Fz := force.2.2 }) = f ∘ Prod.snd := by
    funext ib
    exact hf ib.2 _
  rw [this, ← List.map_map, List.enum, List.enumFrom_map_snd]

/-- A half-kick adds half a time step of the stored forces to the
momentum, when no mass is 0. -/
theorem momentum_map_kick (P : Params α) (g : Body α → Body α)
    (hg : ∀ b : Body α, (g b).mass = b.mass
      ∧ (g b).vx = b.vx + (1 / 2) * (b.Fx / b.mass) * P.TIME_STEP
      ∧ (g b).vy = b.vy + (1 / 2) * (b.Fy / b.mass) * P.TIME_STEP
      ∧ (g b).vz = b.vz + (1 / 2) * (b.Fz / b.mass) * P.TIME_STEP)
    (l : List (Body α)) (hm : ∀ b ∈ l, b.mass ≠ 0) :
    momentum (l.map g) = momentum l + (P.TIME_STEP / 2) • total_force l := by
  induction l with
  | nil => simp [momentum, total_force]
  | cons b l ih =>
    have hb : b.mass ≠ 0 := hm b (List.mem_cons_self _ _)
    have ih := ih fun c hc => hm c (List.mem_cons_of_mem _ hc)
    simp only [momentum, total_force, List.map_cons, List.sum_cons, smul_add] at ih ⊢
    rw [ih]
    obtain ⟨h0, h1, h2, h3⟩ := hg b
    have hone : Body.momentum (g b) = Body.momentum b + (P.TIME_STEP / 2) • b.force := by
      simp only [Body.momentum, Body.force, h0, h1, h2, h3, Prod.smul_mk, smul_eq_mul,
        Prod.mk_add_mk, Prod.mk.injEq]
      refine ⟨?_, ?_, ?_⟩ <;> field_simp <;> ring
    rw [hone]
    abel

/-- Bodies with the masses of bodies of mass not 0 have mass not 0. -/
theorem mass_ne_zero_of_map_eq (l l' : List (Body α))
    (h : l'.map Body.mass = l.map Body.mass) (hm : ∀ b ∈ l, b.mass ≠ 0) :
    ∀ b ∈ l', b.mass ≠ 0 := by
  intro b hb
  have : b.mass ∈ l.map Body.mass := h ▸ List.mem_map_of_mem Body.mass hb
  obtain ⟨c, hc, hcb⟩ := List.mem_map.1 this
  exact hcb ▸ hm c hc

/-- What `naive_time_step` does to the momentum, the stored forces and the
masses. -/
theorem naive_time_step_momentum (P : Params α) (bodies : List (Body α))
    (hm : ∀ b ∈ bodies, b.mass ≠ 0) (first : Bool) :
    momentum (naive_time_step P bodies first)
      = momentum bodies
        + (P.TIME_STEP / 2) • (if first = true then 0 else total_force bodies)
    ∧ total_force (naive_time_step P bodies first) = 0
    ∧ (naive_time_step P bodies first).map Body.mass = bodies.map Body.mass := by
  have hkd : ∀ l : List (Body α), (l.map (naive_kick_drift P)).map Body.mass
      = l.map Body.mass := fun l => by rw [List.map_map]; rfl
  have hk : ∀ l : List (Body α), (l.map (naive_kick P)).map Body.mass
      = l.map Body.mass := fun l => by rw [List.map_map]; rfl
  have hkf : ∀ l : List (Body α), total_force (l.map (naive_kick P)) = total_force l :=
    fun l => by rw [total_force, total_force, List.map_map]; rfl
  have hgm : ∀ l : List (Body α), (naive_get_forces P l).map Body.mass = l.map Body.mass :=
    fun l => naive_get_forces_map P l Body.mass fun _ _ => rfl
  have hgp : ∀ l : List (Body α), momentum (naive_get_forces P l) = momentum l :=
    fun l => by
      rw [momentum, momentum, naive_get_forces_map P l Body.momentum fun _ _ => rfl]
  -- the bodies after the optional first evaluation of the forces
  obtain ⟨b1, hb1⟩ : ∃ b1, b1 = if first = true then naive_get_forces P bodies else bodies :=
    ⟨_, rfl⟩
  have h1m : b1.map Body.mass = bodies.map Body.mass := by
    rw [hb1]; split
    · exact hgm bodies
    · rfl
  have h1p : momentum b1 = momentum bodies := by
    rw [hb1]; split
    · exact hgp bodies
    · rfl
  have h1f : total_force b1 = if first = true then 0 else total_force bodies := by
    rw [hb1]; split
    · exact total_force_naive_get_forces P bodies
    · rfl
  have hstep : naive_time_step P bodies first
      = (naive_get_forces P (b1.map (naive_kick_drift P))).map (naive_kick P) := by
    rw [hb1]; rfl
  have hm1 : ∀ b ∈ b1, b.mass ≠ 0 := mass_ne_zero_of_map_eq bodies b1 h1m hm
  have hm3 : ∀ b ∈ naive_get_forces P (b1.map (naive_kick_drift P)), b.mass ≠ 0 :=
    mass_ne_zero_of_map_eq b1 _ ((hgm _).trans (hkd b1)) hm1
  refine ⟨?_, ?_, ?_⟩
  · rw [hstep, momentum_map_kick P (naive_kick P) (fun b => ⟨rfl, rfl, rfl, rfl⟩) _ hm3,
      total_force_naive_get_forces, smul_zero, add_zero, hgp,
      momentum_map_kick P (naive_kick_drift P) (fun b => ⟨rfl, rfl, rfl, rfl⟩) _ hm1,
      h1p, h1f]
  · rw [hstep, hkf, total_force_naive_get_forces]
  · rw [hstep, hk, hgm, hkd, h1m]

/-- What a run does to the momentum, the stored forces and the masses. -/
theorem naive_run_momentum (P : Params α) (bodies : List (Body α))
    (hm : ∀ b ∈ bodies, b.mass ≠ 0) (steps : Nat) :
    momentum (naive_run P bodies steps) = momentum bodies
    ∧ total_force (naive_run P bodies steps) = 0
    ∧ (naive_run P bodies steps).map Body.mass = bodies.map Body.mass := by
  induction steps with
  | zero =>
    obtain ⟨h1, h2, h3⟩ := naive_time_step_momentum P bodies hm true
    refine ⟨?_, h2, h3⟩
    rw [naive_run, h1, if_pos rfl, smul_zero, add_zero]
  | succ k ih =>
    obtain ⟨i1, i2, i3⟩ := ih
    have hk : ∀ b ∈ naive_run P bodies k, b.mass ≠ 0 :=
      mass_ne_zero_of_map_eq bodies _ i3 hm
    obtain ⟨h1, h2, h3⟩ := naive_time_step_momentum P (naive_run P bodies k) hk false
    refine ⟨?_, h2, h3.trans i3⟩
    rw [naive_run, h1, if_neg (by simp), i2, smul_zero, add_zero, i1]

/-- C20: the terms `naive_get_forces` adds up are antisymmetric in the two
bodies, the force it stores in a body is the sum of the terms of the other
bodies, and the forces it stores sum to `(0, 0, 0)`. Therefore, with no
mass 0, `naive_time_step` leaves the total momentum unchanged: when called
with `first` set; when called with `first` not set on bodies whose stored
forces sum to `(0, 0, 0)`, as `read_init` and every earlier call leave
them; after a call, in the next call; and after every number of steps of
the run of `main`. In general a call adds half a time step of the sum of
the forces used by its first half-kick, which was stored on entry when
`first` is not set. -/
theorem C20_momentum (P : Params α) (bodies : List (Body α))
    (hm : ∀ b ∈ bodies, b.mass ≠ 0) :
    (∀ a b : Body α, pair_force P a b = - pair_force P b a)
    ∧ (∀ (i : Nat) (bi : Body α), naive_force P bodies i bi
        = (bodies.enum.map fun jb => if i = jb.1 then 0 else pair_force P bi jb.2).sum)
    ∧ total_force (naive_get_forces P bodies) = 0
    ∧ (∀ first : Bool, momentum (naive_time_step P bodies first)
        = momentum bodies
          + (P.TIME_STEP / 2) • (if first = true then 0 else total_force bodies))
    ∧ momentum (naive_time_step P bodies true) = momentum bodies
    ∧ (total_force bodies = 0 → momentum (naive_time_step P bodies false) = momentum bodies)
    ∧ (∀ first : Bool, total_force (naive_time_step P bodies first) = 0
        ∧ (∀ b ∈ naive_time_step P bodies first, b.mass ≠ 0)
        ∧ momentum (naive_time_step P (naive_time_step P bodies first) false)
          = momentum (naive_time_step P bodies first))
    ∧ (∀ steps : Nat, momentum (naive_run P bodies steps) = momentum bodies
        ∧ total_force (naive_run P bodies steps) = 0) := by
  have hmass : ∀ first : Bool, ∀ b ∈ naive_time_step P bodies first, b.mass ≠ 0 :=
    fun first => mass_ne_zero_of_map_eq bodies _ (naive_time_step_momentum P bodies hm first).2.2 hm
  refine ⟨pair_force_antisymm P, naive_force_eq_sum P bodies,
    total_force_naive_get_forces P bodies,
    fun first => (naive_time_step_momentum P bodies hm first).1, ?_, ?_, ?_,
    fun steps => ⟨(naive_run_momentum P bodies hm steps).1,
      (naive_run_momentum P bodies hm steps).2.1⟩⟩
  · rw [(naive_time_step_momentum P bodies hm true).1, if_pos rfl, smul_zero, add_zero]
  · intro h0
    rw [(naive_time_step_momentum P bodies hm false).1, if_neg (by simp), h0, smul_zero,
      add_zero]
  · intro first
    refine ⟨(naive_time_step_momentum P bodies hm first).2.1, hmass first, ?_⟩
    rw [(naive_time_step_momentum P _ (hmass first) false).1, if_neg (by simp),
      (naive_time_step_momentum P bodies hm first).2.1, smul_zero, add_zero]

end C20

/-- C20 at two bodies of mass 1 at `(1, 2, 2)` and `(2, 4, 4)`, at rest
with no stored force: the first step and the run of three more steps
leave the momentum `(0, 0, 0)`, and the forces `naive_get_forces` stores
sum to zero. -/
theorem C20_momentum_witness :
    (∀ b ∈ two_bodies, b.mass ≠ 0)
    ∧ momentum (naive_time_step (params_q 0 0) two_bodies true) = momentum two_bodies
    ∧ momentum (naive_run (params_q 0 0) two_bodies 3) = momentum two_bodies
    ∧ momentum two_bodies = (0, 0, 0)
    ∧ total_force (naive_get_forces (params_q 0 0) two_bodies) = 0 := by
  have hm : ∀ b ∈ two_bodies, b.mass ≠ 0 := by
    intro b hb
    simp only [two_bodies, List.mem_cons, List.mem_singleton, List.not_mem_nil, or_false] at hb
    rcases hb with rfl | rfl <;> decide!
  exact ⟨hm, (C20_momentum (params_q 0 0) two_bodies hm).2.2.2.2.1,
    ((C20_momentum (params_q 0 0) two_bodies hm).2.2.2.2.2.2.2 3).1, by decide!,
    (C20_momentum (params_q 0 0) two_bodies hm).2.2.1⟩

/-! ## The rounded octree builder -/

section RoundedExact
variable {α : Type} [LinearOrderedField α]

/-- With a rounding that changes nothing the rounded child is the exact
one. -/
theorem new_child_fl_exact (rnd : α → α) (hr : ∀ x, rnd x = x) :
    new_child_fl rnd = new_child := by
  obtain rfl : rnd = id := funext hr
  rfl

/-- With a rounding that changes nothing the rounded aggregates are the
exact ones. -/
theorem set_mass_info_fl_exact (rnd : α → α) (hr : ∀ x, rnd x = x) :
    set_mass_info_fl rnd = set_mass_info := by
  obtain rfl : rnd = id := funext hr
  rfl

end RoundedExact

/-- The function `force_nat` applies the function to the number. -/
theorem force_nat_eq {β : Type} (n : Nat) (f : Nat → β) : force_nat n f = f n := by
  cases n <;> rfl

/-- The function `force_int` applies the function to the number. -/
theorem force_int_eq {β : Type} (i : Int) (f : Int → β) : force_int i f = f i := by
  cases i <;> simp [force_int, force_nat_eq]

/-- The function `force_rat` applies the function to the number. -/
theorem force_rat_eq {β : Type} (q : ℚ) (f : ℚ → β) : force_rat q f = f q := by
  simp [force_rat, force_int_eq, force_nat_eq, Rat.mkRat_self]

/-- The rounding in words: 0 stays, and any other `q` goes to the multiple
of `ulp` nearest to it, ties to the even multiple, `ulp` being
`2 ^ (e - 52)` for the exponent `e` of `q`, and `2 ^ (-1074)` below
`2 ^ (-1022)`. -/
theorem round64_eq (q : ℚ) :
    round64 q = if q = 0 then 0
      else (round_even (q / pow2 ((if floor_log2 q < -1022 then -1022 else floor_log2 q) - 52))
          : ℚ) * pow2 ((if floor_log2 q < -1022 then -1022 else floor_log2 q) - 52) := by
  simp only [round64, force_rat_eq, force_int_eq, id]

/-- Values of `round64`: `1/3` and `1/10` as `double`s, the ties
`2 ^ 53 + 1` and `2 ^ 53 + 3`, which go to the even neighbour, and the
least positive `double`, `2 ^ (-1074)`, with half of it going to 0. -/
theorem round64_values :
    round64 (1 / 3) = 6004799503160661 * pow2 (-54)
    ∧ round64 (1 / 10) = 3602879701896397 * pow2 (-55)
    ∧ round64 9007199254740993 = 9007199254740992
    ∧ round64 9007199254740995 = 9007199254740996
    ∧ round64 (-9007199254740995) = -9007199254740996
    ∧ round64 (pow2 (-1074)) = pow2 (-1074)
    ∧ round64 (pow2 (-1075)) = 0
    ∧ round64 (3 * pow2 (-1075)) = 2 * pow2 (-1074)
    ∧ round64 (1 + pow2 (-53)) = 1
    ∧ round64 (1 + 3 * pow2 (-53)) = 1 + 2 * pow2 (-52) := by
  decide!

set_option maxRecDepth 1000000 in
/-- The tree the source builds in `double` for `twin_bodies`, two bodies
at one position, for which the exact construction does not end: it ends,
with 433 nodes, because the rounded cubes lose the bodies. -/
theorem twin_bodies_tree :
    (barnes_hut_tree_fl round64 54 [] twin_bodies).map
      (fun r => (r.bodies.map Body.id, (leaf_bodies r).map Body.id, (tree_nodes r).length))
      = some ([0, 1], [], 433) := by
  decide!

/-! ## C5: the leaves and the root list -/

section C5
variable {α : Type} [LinearOrderedField α]

end C5

section C15
variable {α : Type} [LinearOrderedField α]

end C15

end NBody
